import Mathlib

/-!
Verification development for the gsmarena-scraper repository
(phone_review_url_scraper.py, phone_specs_scraper.py, phone_image_scraper.py).

Python strings are modelled as `List Char` (the ASCII fragment); the regular
expression substitutions used by the code are modelled by explicit scanning
functions that follow the leftmost-match, greedy semantics of `re.sub` for
the concrete patterns appearing in the source.  Network and filesystem
effects are modelled by explicit outcome parameters.
-/

set_option linter.unusedVariables false

namespace GsmScraper

/-- ASCII whitespace, as matched by a Python regex class for whitespace. -/
def isSpacePy (c : Char) : Bool :=
  c == ' ' || c == '\t' || c == '\n' || c == '\r' || c == '\x0b' || c == '\x0c'

/-- Lowercasing of a Python string, `str.lower` on the ASCII fragment. -/
def lowerStr (s : List Char) : List Char := s.map Char.toLower

/-- Python substring test: the operator form of membership of one string in another. -/
def containsSub (pat : List Char) : List Char → Bool
  | [] => pat.isEmpty
  | c :: rest => pat.isPrefixOf (c :: rest) || containsSub pat rest

/-- Fuelled model of Python string split on a (non-empty) separator string:
scans left to right, emitting the segment collected so far whenever the
separator occurs, non-overlapping.  Fuel at least length + 1 is always enough. -/
def pySplitF (pat : List Char) : Nat → List Char → List Char → List (List Char)
  | 0, acc, s => [acc.reverse ++ s]
  | _ + 1, acc, [] => [acc.reverse]
  | f + 1, acc, c :: rest =>
    if pat ≠ [] ∧ pat.isPrefixOf (c :: rest) then
      acc.reverse :: pySplitF pat f [] ((c :: rest).drop pat.length)
    else
      pySplitF pat f (c :: acc) rest

/-- Python str.split on a separator string. -/
def pySplit (pat s : List Char) : List (List Char) :=
  pySplitF pat (s.length + 1) [] s

/-- Fuelled model of Python str.replace for the fixed pattern ".php" and the
empty replacement (non-overlapping, left to right). -/
def replacePhpF : Nat → List Char → List Char
  | 0, s => s
  | _ + 1, [] => []
  | f + 1, c :: rest =>
    if (".php".toList).isPrefixOf (c :: rest) then replacePhpF f (rest.drop 3)
    else c :: replacePhpF f rest

/-- `s.replace(".php", "")` from construct_pictures_url. -/
def replacePhp (s : List Char) : List Char := replacePhpF s.length s

/-- Python str.replace for the fixed pattern "thumb" replaced by "pics"
(used on image URLs). -/
def replaceThumb : List Char → List Char
  | 't' :: 'h' :: 'u' :: 'm' :: 'b' :: rest => 'p' :: 'i' :: 'c' :: 's' :: replaceThumb rest
  | c :: rest => c :: replaceThumb rest
  | [] => []

/-- Python `s.rsplit(sep, 1)`: split on the LAST occurrence of the separator
character; a list of two parts when the separator occurs, else the whole string. -/
def rsplit1 (sep : Char) (s : List Char) : List (List Char) :=
  let r := s.reverse
  let revSuf := r.takeWhile (fun c => c ≠ sep)
  match r.dropWhile (fun c => c ≠ sep) with
  | [] => [s]
  | _ :: revPre => [revPre.reverse, revSuf.reverse]

/-- Remove trailing characters satisfying `p` (the right half of Python strip). -/
def dropTrail (p : Char → Bool) : List Char → List Char
  | [] => []
  | c :: rest =>
    match dropTrail p rest with
    | [] => if p c then [] else [c]
    | r => c :: r

/-- Python `s.strip(...)` with the character class given as a predicate. -/
def stripBy (p : Char → Bool) (s : List Char) : List Char :=
  dropTrail p (s.dropWhile p)

/-- Model of the substitution of a run of regex whitespace by a single space,
`re.sub` of one-or-more whitespace with a single space. -/
def collapseWs : List Char → List Char
  | [] => []
  | [c] => if isSpacePy c then [' '] else [c]
  | c :: d :: rest =>
    if isSpacePy c then
      if isSpacePy d then collapseWs (d :: rest)
      else ' ' :: collapseWs (d :: rest)
    else c :: collapseWs (d :: rest)

/-- Python `str.strip()` with no argument (strip whitespace at both ends). -/
def stripPy (s : List Char) : List Char := stripBy isSpacePy s

/-- Python `str.split()` with no argument: split on whitespace runs,
discarding empty fields.  `cur` holds the current word reversed. -/
def splitWsGo (cur : List Char) : List Char → List (List Char)
  | [] => if cur = [] then [] else [cur.reverse]
  | c :: rest =>
    if isSpacePy c then
      if cur = [] then splitWsGo [] rest else cur.reverse :: splitWsGo [] rest
    else splitWsGo (c :: cur) rest

def splitWs (s : List Char) : List (List Char) := splitWsGo [] s

/-- Python `' '.join(words)`. -/
def joinWords (ws : List (List Char)) : List Char :=
  List.intercalate [' '] ws

/-- Case-insensitive literal match at the head: strips `pat` (given in
lowercase) from the front of `s`, comparing lowercased characters. -/
def stripCI (pat : List Char) (s : List Char) : Option (List Char) :=
  match pat, s with
  | [], s => some s
  | _ :: _, [] => none
  | p :: ps, c :: cs => if c.toLower = p then stripCI ps cs else none

/-- Match of the review-phrase regex at the current position: optional
whitespace, an optional "hands-on" with trailing whitespace, the literal
"review" (all case-insensitive), then trailing whitespace.  Returns the
remainder after the match.  Mirrors the greedy backtracking order of the
regex engine for this pattern. -/
def matchReviewAt (s : List Char) : Option (List Char) :=
  let s1 := s.dropWhile isSpacePy
  match stripCI ("hands-on".toList) s1 with
  | some s2 =>
    match stripCI ("review".toList) (s2.dropWhile isSpacePy) with
    | some s3 => some (s3.dropWhile isSpacePy)
    | none =>
      match stripCI ("review".toList) s1 with
      | some s3 => some (s3.dropWhile isSpacePy)
      | none => none
  | none =>
    match stripCI ("review".toList) s1 with
    | some s3 => some (s3.dropWhile isSpacePy)
    | none => none

/-- Fuelled `re.sub` for the review-phrase pattern, with replacement `rep`. -/
def subReviewF (rep : List Char) : Nat → List Char → List Char
  | 0, s => s
  | _ + 1, [] => []
  | f + 1, c :: rest =>
    match matchReviewAt (c :: rest) with
    | some rem => rep ++ subReviewF rep f rem
    | none => c :: subReviewF rep f rest

/-- Review-phrase substitution with a single-space replacement (sanitize_filename). -/
def subReviewSp (s : List Char) : List Char := subReviewF [' '] s.length s

/-- Review-phrase substitution with the empty replacement (clean_phone_name). -/
def subReviewE (s : List Char) : List Char := subReviewF [] s.length s

/-- Match of the ampersand regex (whitespace, ampersand, whitespace) at the
current position, returning the remainder. -/
def matchAmpAt (s : List Char) : Option (List Char) :=
  match s.dropWhile isSpacePy with
  | '&' :: rest => some (rest.dropWhile isSpacePy)
  | _ => none

/-- Fuelled `re.sub` replacing whitespace-ampersand-whitespace by " and ". -/
def subAmpF : Nat → List Char → List Char
  | 0, s => s
  | _ + 1, [] => []
  | f + 1, c :: rest =>
    match matchAmpAt (c :: rest) with
    | some rem => " and ".toList ++ subAmpF f rem
    | none => c :: subAmpF f rest

def subAmp (s : List Char) : List Char := subAmpF s.length s

/-- The characters the code strips from filenames. -/
def sanitizeInvalid (c : Char) : Bool :=
  c == '<' || c == '>' || c == ':' || c == '"' || c == '/' ||
  c == '\\' || c == '|' || c == '?' || c == '*'

/-- A dot or a space, the class stripped by `strip('. ')`. -/
def dotSpace (c : Char) : Bool := c == '.' || c == ' '

/-- The steps of sanitize_filename before the final length truncation:
review-phrase removal, ampersand rewriting, invalid-character replacement,
whitespace collapsing and stripping, dot and space stripping. -/
def sanitize_core (filename : List Char) : List Char :=
  let f1 := subReviewSp filename
  let f2 := subAmp f1
  let f3 := f2.map (fun c => if sanitizeInvalid c then '_' else c)
  let f4 := stripPy (collapseWs f3)
  stripBy dotSpace f4

/-- sanitize_filename from phone_image_scraper.py. -/
def sanitize_filename (filename : List Char) : List Char :=
  let f := sanitize_core filename
  if 100 < f.length then f.take 100 else f

/-- Match of the parenthetical regex: an opening parenthesis, characters other
than a closing parenthesis, then a closing parenthesis.  `parenScan` returns
the remainder after the first closing parenthesis, if any. -/
def parenScan : List Char → Option (List Char)
  | [] => none
  | ')' :: rest => some rest
  | _ :: rest => parenScan rest

/-- Fuelled `re.sub` removing parenthesised text. -/
def parenSubF : Nat → List Char → List Char
  | 0, s => s
  | _ + 1, [] => []
  | f + 1, c :: rest =>
    if c = '(' then
      match parenScan rest with
      | some rem => parenSubF f rem
      | none => '(' :: parenSubF f rest
    else c :: parenSubF f rest

def parenSub (s : List Char) : List Char := parenSubF s.length s

/-- `re.sub` of the single-character class containing the ampersand by "and". -/
def ampToAnd : List Char → List Char
  | [] => []
  | c :: rest =>
    if c = '&' then 'a' :: 'n' :: 'd' :: ampToAnd rest
    else c :: ampToAnd rest

/-- A word character, whitespace or hyphen: the class kept by clean_phone_name. -/
def keepCharB (c : Char) : Bool :=
  c.isAlphanum || c == '_' || isSpacePy c || c == '-'

/-- The name-cleaning pipeline of clean_phone_name up to the whitespace
normalisation (the value bound to clean_name in the source). -/
def cleanNameCore (phone_name : List Char) : List Char :=
  let c1 := subReviewE phone_name
  let c2 := parenSub c1
  let c3 := ampToAnd c2
  let c4 := c3.filter keepCharB
  stripPy (collapseWs c4)

/-- The brand-canonicalisation table of clean_phone_name. -/
def brand_mappings : List (List Char × List Char) :=
  [("xiaomi".toList, "Xiaomi".toList),
   ("samsung".toList, "Samsung".toList),
   ("vivo".toList, "vivo".toList),
   ("oneplus".toList, "OnePlus".toList),
   ("google".toList, "Google".toList),
   ("apple".toList, "Apple".toList),
   ("iphone".toList, "iPhone".toList)]

def lookupBrand (w : List Char) : Option (List Char) :=
  (brand_mappings.find? (fun p => p.1 = lowerStr w)).map (fun p => p.2)

structure CleanInfo where
  safe_name : List Char
  display_name : List Char
  brand : List Char
  model : List Char
deriving DecidableEq, Repr

/-- clean_phone_name from phone_image_scraper.py. -/
def clean_phone_name (phone_name : List Char) : CleanInfo :=
  let clean_name := cleanNameCore phone_name
  let words := splitWs clean_name
  let bm : List Char × List Char :=
    match words with
    | [] => ("Unknown".toList, joinWords [])
    | w :: ws =>
      match lookupBrand w with
      | some b => (b, joinWords ws)
      | none => (w, joinWords ws)
  let brand := bm.1
  let model := bm.2
  let display_name := if model = [] then brand else brand ++ [' '] ++ model
  { safe_name := sanitize_filename clean_name
    display_name := display_name
    brand := brand
    model := model }

/-! ### construct_pictures_url -/

def gsmDomChars : List Char := "gsmarena.com/".toList

def siteRoot : List Char := "https://www.gsmarena.com/".toList

/-- The domain-stripping step of construct_pictures_url:
`spec_url.split('gsmarena.com/')[-1]` when the domain occurs. -/
def stripDomain (spec_url : List Char) : List Char :=
  if containsSub gsmDomChars spec_url then
    (pySplit gsmDomChars spec_url).getLastD spec_url
  else spec_url

/-- construct_pictures_url from phone_image_scraper.py. -/
def construct_pictures_url (spec_url : List Char) : Option (List Char) :=
  let base := replacePhp (stripDomain spec_url)
  match rsplit1 '-' base with
  | [phone_name, phone_id] =>
    some (siteRoot ++ phone_name ++ "-pictures-".toList ++ phone_id ++ ".php".toList)
  | _ => none

/-! ### Model of URL resolution and path handling -/

/-- Model of `urljoin('https://www.gsmarena.com/', href)` for the cases that
occur for scraped hrefs: an absolute http(s) URL is returned unchanged, a
root-relative path is attached to the host, anything else is attached to the
base directory. -/
def urljoin' (href : List Char) : List Char :=
  if ("http://".toList).isPrefixOf href ∨ ("https://".toList).isPrefixOf href then href
  else if ("/".toList).isPrefixOf href then "https://www.gsmarena.com".toList ++ href
  else "https://www.gsmarena.com/".toList ++ href

/-- The remainder of `s` after the first occurrence of `pat`, when it occurs. -/
def afterFirst (pat : List Char) : List Char → Option (List Char)
  | [] => if pat = [] then some [] else none
  | c :: rest =>
    if pat.isPrefixOf (c :: rest) then some ((c :: rest).drop pat.length)
    else afterFirst pat rest

/-- Model of `urlparse(u).path` for http(s) URLs: drop the fragment and the
query, then, when a scheme-and-authority part is present, keep the part from
the first slash after the authority on. -/
def pathOfUrl (u : List Char) : List Char :=
  let u1 := u.takeWhile (fun c => c ≠ '#')
  let u2 := u1.takeWhile (fun c => c ≠ '?')
  match afterFirst ("://".toList) u2 with
  | some rest => rest.dropWhile (fun c => c ≠ '/')
  | none =>
    if ("//".toList).isPrefixOf u2 then (u2.drop 2).dropWhile (fun c => c ≠ '/')
    else u2

/-- Model of `os.path.splitext(p)[1]`: the extension of the last path segment,
including its dot; empty when the last segment has no dot, or only leading dots. -/
def extOfPath (p : List Char) : List Char :=
  let base := match rsplit1 '/' p with
    | [_, b] => b
    | _ => p
  match rsplit1 '.' base with
  | [before, after] => if before.any (fun c => c ≠ '.') then '.' :: after else []
  | _ => []

/-- Decimal digits of a natural number, fuelled (fuel `n` is always enough). -/
def natToStrAuxF : Nat → Nat → List Char → List Char
  | 0, _, acc => acc
  | f + 1, n, acc =>
    if n = 0 then acc
    else natToStrAuxF f (n / 10) (Char.ofNat (48 + n % 10) :: acc)

/-- Model of Python `str(n)` for a natural number. -/
def natToStr (n : Nat) : List Char :=
  if n = 0 then ['0'] else natToStrAuxF n n []

/-! ### Model of the parsed pictures page and scrape_images_from_pictures_page -/

/-- An `img` element: `get('src')` yields `none` when the attribute is absent. -/
structure ImgTag where
  src : Option (List Char)
deriving DecidableEq, Repr

/-- The `specs-photo-main` div: its first `img` element, when present. -/
structure MainDiv where
  img : Option ImgTag
deriving DecidableEq, Repr

/-- The `pictures-list` div: the href values of its `a[href]` elements in
document order, and its `img` elements in document order. -/
structure PicList where
  hrefs : List (List Char)
  imgs : List ImgTag
deriving DecidableEq, Repr

/-- A parsed pictures page: the optional `specs-photo-main` div, the optional
`pictures-list` div, and all `img` elements of the whole page. -/
structure PicturesPage where
  mainDiv : Option MainDiv
  picturesList : Option PicList
  allImgs : List ImgTag
deriving DecidableEq, Repr

/-- The thumbnail-to-full-size substitution applied to candidate image URLs:
URLs already under a full-size directory are kept, URLs whose lowercase form
contains "thumb" have "thumb" replaced by "pics". -/
def thumbFix (img_url : List Char) : List Char :=
  if containsSub ("/vv/bigpic/".toList) img_url ∨ containsSub ("/vv/pics/".toList) img_url then
    img_url
  else if containsSub ("thumb".toList) (lowerStr img_url) then replaceThumb img_url
  else img_url

/-- Step (a) of image discovery: the main image from `specs-photo-main`,
when the div, an img element and a non-empty src are present.  The
membership check of the source is vacuous here since the accumulator is
still empty at this point. -/
def mainPhase (p : PicturesPage) : List (List Char) :=
  match p.mainDiv with
  | none => []
  | some d =>
    match d.img with
    | none => []
    | some tag =>
      match tag.src with
      | none => []
      | some src => if src = [] then [] else [thumbFix (urljoin' src)]

/-- The extension test of step (b): the href contains ".jpg", ".png" or ".webp". -/
def hrefHasExt (href : List Char) : Bool :=
  containsSub (".jpg".toList) href || containsSub (".png".toList) href ||
  containsSub (".webp".toList) href

/-- Step (b) of image discovery: walk the pictures-list hrefs, resolving and
appending each new URL, stopping once the requested maximum is reached. -/
def addLinks (max_images : Nat) : List (List Char) → List (List Char) → List (List Char)
  | [], acc => acc
  | href :: rest, acc =>
    if hrefHasExt href then
      let img_url := urljoin' href
      if img_url ∈ acc then addLinks max_images rest acc
      else
        let acc2 := acc ++ [img_url]
        if max_images ≤ acc2.length then acc2 else addLinks max_images rest acc2
    else addLinks max_images rest acc

/-- The markers whose presence in a lowercased src causes an img to be skipped. -/
def skipMarkers : List (List Char) :=
  ["icon".toList, "logo".toList, "sprite".toList, "button".toList, "blank".toList]

/-- The src test of step (c): non-empty and containing a recognised extension. -/
def srcHasExt (src : List Char) : Bool :=
  containsSub (".jpg".toList) src || containsSub (".png".toList) src ||
  containsSub (".webp".toList) src

/-- Step (c) of image discovery: the broadened scan over img elements. -/
def scanPhase (max_images : Nat) : List ImgTag → List (List Char) → List (List Char)
  | [], acc => acc
  | tag :: rest, acc =>
    let src := tag.src.getD []
    if (skipMarkers.any (fun m => containsSub m (lowerStr src))) then
      scanPhase max_images rest acc
    else if src ≠ [] ∧ srcHasExt src then
      let img_url := thumbFix (urljoin' src)
      if img_url ∈ acc then scanPhase max_images rest acc
      else
        let acc2 := acc ++ [img_url]
        if max_images ≤ acc2.length then acc2 else scanPhase max_images rest acc2
    else scanPhase max_images rest acc

/-- The img elements scanned by step (c): those of the pictures-list div when
present, else all img elements of the page. -/
def scanTags (p : PicturesPage) : List ImgTag :=
  match p.picturesList with
  | some pl => pl.imgs
  | none => p.allImgs

/-- scrape_images_from_pictures_page from phone_image_scraper.py.  The
argument is the parsed page, `none` standing for a fetch or parse exception
(in which case the except branch returns an empty list). -/
def scrape_images_from_pictures_page (pageOpt : Option PicturesPage) (max_images : Nat) :
    List (List Char) :=
  match pageOpt with
  | none => []
  | some p =>
    let image_urls := mainPhase p
    let image_urls :=
      match p.picturesList with
      | some pl => addLinks max_images pl.hrefs image_urls
      | none => image_urls
    let image_urls :=
      if image_urls.length ≤ 1 then scanPhase max_images (scanTags p) image_urls
      else image_urls
    image_urls.take max_images

/-! ### Model of image download -/

/-- The outcome of the GET of an image URL: a response with a final status
and body, or an exception before any response (timeout, connection error). -/
inductive DLOutcome where
  | resp (status : Nat) (body : List Char)
  | connErr
deriving DecidableEq, Repr

/-- download_image from phone_image_scraper.py, over an outcome function.
`raise_for_status` raises exactly for statuses in [400, 600); the saved file
has the body as content, so success requires a non-empty body. -/
def download_image (net : List Char → DLOutcome) (image_url save_path : List Char) : Bool :=
  match net image_url with
  | .connErr => false
  | .resp status body =>
    if 400 ≤ status ∧ status < 600 then false
    else decide (0 < body.length)

def allowedExts : List (List Char) :=
  [".jpg".toList, ".jpeg".toList, ".png".toList, ".webp".toList]

/-- The extension chosen for a discovered image URL: the path extension when
recognised, else ".jpg". -/
def extFor (img_url : List Char) : List Char :=
  let ext := extOfPath (pathOfUrl img_url)
  if ext = [] ∨ ext ∉ allowedExts then ".jpg".toList else ext

/-- The filename for the slot at 1-based position `idx` of the discovered list. -/
def slotFilename (idx : Nat) (img_url : List Char) : List Char :=
  if idx = 1 then "main".toList ++ extFor img_url
  else "angle_".toList ++ natToStr idx ++ extFor img_url

/-- The save path for the slot at 1-based position `idx`. -/
def slotPath (phone_dir : List Char) (idx : Nat) (img_url : List Char) : List Char :=
  phone_dir ++ ['/'] ++ slotFilename idx img_url

/-- The download loop of download_phone_images: `idx` is the 1-based position
of the head of the remaining URL list in the discovered list; a successful
download appends the save path. -/
def dlGo (net : List Char → DLOutcome) (phone_dir : List Char) :
    Nat → List (List Char) → List (List Char)
  | _, [] => []
  | idx, img_url :: rest =>
    let save_path := slotPath phone_dir idx img_url
    if download_image net img_url save_path then save_path :: dlGo net phone_dir (idx + 1) rest
    else dlGo net phone_dir (idx + 1) rest

/-- download_phone_images from phone_image_scraper.py, over an image-GET
outcome function and a pictures-page fetch function keyed by pictures URL. -/
def download_phone_images (net : List Char → DLOutcome)
    (pages : List Char → Option PicturesPage)
    (phone_name spec_url images_dir : List Char) (max_images : Nat) :
    List (List Char) × CleanInfo :=
  let clean_info := clean_phone_name phone_name
  let safe_name := clean_info.safe_name
  match construct_pictures_url spec_url with
  | none => ([], clean_info)
  | some pictures_url =>
    let image_urls := scrape_images_from_pictures_page (pages pictures_url) max_images
    if image_urls = [] then ([], clean_info)
    else
      let phone_dir := images_dir ++ ['/'] ++ safe_name
      (dlGo net phone_dir 1 image_urls, clean_info)

/-! ### Model of process_phones_from_csv -/

/-- A CSV row as seen by DictReader: a field is `none` when its column is
absent, `some []` when present but empty. -/
structure CsvRow where
  phone_name : Option (List Char)
  spec_url : Option (List Char)
  metadata_spec_url : Option (List Char)
  review_url : Option (List Char)
deriving DecidableEq, Repr

/-- Python `a or b` over optional strings: the left value when truthy
(present and non-empty), else the right operand. -/
def orTruthy : Option (List Char) → Option (List Char) → Option (List Char)
  | some v, b => if v = [] then b else some v
  | none, b => b

/-- The spec-URL column fallback chain of process_phones_from_csv. -/
def rowSpecUrl (r : CsvRow) : Option (List Char) :=
  orTruthy r.spec_url (orTruthy r.metadata_spec_url r.review_url)

/-- The phones read from the CSV: rows with a phone_name column and a truthy
spec URL. -/
def phonesFromRows (rows : List CsvRow) : List (List Char × List Char) :=
  rows.filterMap (fun r =>
    match r.phone_name, rowSpecUrl r with
    | some pn, some su => if su = [] then none else some (pn, su)
    | _, _ => none)

/-- The start_from and max_phones slicing of the phone list. -/
def slicePhones (phones : List (List Char × List Char)) (max_phones : Option Nat)
    (start_from : Nat) : List (List Char × List Char) :=
  let phones := if 0 < start_from then phones.drop start_from else phones
  match max_phones with
  | some m => if m = 0 then phones else phones.take m
  | none => phones

structure ManifestEntry where
  spec_url : List Char
  image_count : Nat
  image_paths : List (List Char)
  clean_info : CleanInfo
deriving DecidableEq, Repr

/-- Python dict assignment on an association list: replace in place when the
key is present, else append. -/
def alUpd {V : Type} (m : List (List Char × V)) (k : List Char) (v : V) :
    List (List Char × V) :=
  if m.any (fun p => p.1 = k) then m.map (fun p => if p.1 = k then (k, v) else p)
  else m ++ [(k, v)]

structure ProcState where
  results : List (List Char × ManifestEntry)
  successful : Nat
  failed : Nat
deriving DecidableEq, Repr

/-- The per-phone body of the loop of process_phones_from_csv. -/
def processPhone (net : List Char → DLOutcome) (pages : List Char → Option PicturesPage)
    (images_dir : List Char) (max_images : Nat) (s : ProcState)
    (ph : List Char × List Char) : ProcState :=
  if ph.2 = [] then { s with failed := s.failed + 1 }
  else
    let res := download_phone_images net pages ph.1 ph.2 images_dir max_images
    let image_paths := res.1
    let clean_info := res.2
    if image_paths = [] then { s with failed := s.failed + 1 }
    else
      { s with
        results := alUpd s.results ph.1
          { spec_url := ph.2
            image_count := image_paths.length
            image_paths := image_paths
            clean_info := clean_info }
        successful := s.successful + 1 }

/-- process_phones_from_csv from phone_image_scraper.py (the part from the
parsed CSV rows to the results dictionary and counters). -/
def process_phones_from_csv (net : List Char → DLOutcome)
    (pages : List Char → Option PicturesPage) (rows : List CsvRow)
    (images_dir : List Char) (max_phones : Option Nat) (max_images start_from : Nat) :
    ProcState :=
  let phones := slicePhones (phonesFromRows rows) max_phones start_from
  phones.foldl (processPhone net pages images_dir max_images) ⟨[], 0, 0⟩

/-! ### Model of the Review Lister (phone_review_url_scraper.py) -/

/-- A title element candidate: its stripped text and the href of the link
found in it (or of itself when it is a link). -/
structure TitleEl where
  text : List Char
  href : Option (List Char)
deriving DecidableEq, Repr

/-- An img element inside a review item, with optional src and alt. -/
structure ItemImg where
  src : Option (List Char)
  alt : Option (List Char)
deriving DecidableEq, Repr

/-- A review item container: the three title fallbacks, the img element, the
two date-element fallbacks and the snippet paragraph, each optional. -/
structure ReviewItem where
  h3 : Option TitleEl
  h2 : Option TitleEl
  aTitle : Option TitleEl
  img : Option ItemImg
  li : Option (List Char)
  dateSpan : Option (List Char)
  para : Option (List Char)
deriving DecidableEq, Repr

/-- A parsed review listing page: items found under the review-item class,
the optional review-body container with its items, items under the alternate
class, and the byte length of the response body. -/
structure PageDoc where
  reviewItems : List ReviewItem
  reviewBodyItems : Option (List ReviewItem)
  altItems : List ReviewItem
  contentLen : Nat
deriving DecidableEq, Repr

/-- The review_data dictionary built for one item; a field is `none` when the
corresponding key was never assigned. -/
structure ReviewData where
  phone_name : Option (List Char) := none
  review_url : Option (List Char) := none
  image_url : Option (List Char) := none
  image_alt : Option (List Char) := none
  date : Option (List Char) := none
  snippet : Option (List Char) := none
deriving DecidableEq, Repr

/-- `if review_data:` — the dictionary is non-empty. -/
def ReviewData.isEmptyRD (r : ReviewData) : Bool :=
  r.phone_name.isNone && r.review_url.isNone && r.image_url.isNone &&
  r.image_alt.isNone && r.date.isNone && r.snippet.isNone

/-- The selector fallback chain for review items. -/
def selectItems (p : PageDoc) : List ReviewItem :=
  if p.reviewItems ≠ [] then p.reviewItems
  else
    let fromBody := match p.reviewBodyItems with
      | some items => items
      | none => []
    if fromBody ≠ [] then fromBody else p.altItems

/-- The field extraction for one review item. -/
def extractItem (it : ReviewItem) : ReviewData :=
  let title := (it.h3.orElse (fun _ => it.h2)).orElse (fun _ => it.aTitle)
  let rd : ReviewData := {}
  let rd := match title with
    | some t =>
      let rd := { rd with phone_name := some t.text }
      match t.href with
      | some h => { rd with review_url := some (urljoin' h) }
      | none => rd
    | none => rd
  let rd := match it.img with
    | some im =>
      { rd with image_url := some (im.src.getD []), image_alt := some (im.alt.getD []) }
    | none => rd
  let rd := match it.li.orElse (fun _ => it.dateSpan) with
    | some d => { rd with date := some d }
    | none => rd
  match it.para with
  | some sn => { rd with snippet := some sn }
  | none => rd

/-- scrape_single_page from phone_review_url_scraper.py: the argument is the
parsed page, `none` standing for a fetch or parse exception, in which case
the except branches return an empty list and no-content. -/
def scrape_single_page : Option PageDoc → List ReviewData × Bool
  | none => ([], false)
  | some p =>
    let reviews := (selectItems p).foldl
      (fun acc it =>
        let rd := extractItem it
        if rd.isEmptyRD then acc else acc ++ [rd]) []
    (reviews, decide (1000 < p.contentLen))

/-- The state of the pagination loop of scrape_gsmarena_reviews.  The
`fetched` field instruments the model with the list of page numbers fetched,
in order, so that temporal claims about which pages are requested can be
stated. -/
structure ScrapeState where
  all_reviews : List ReviewData
  page_num : Nat
  consecutive_empty : Nat
  fetched : List Nat
deriving DecidableEq, Repr

/-- Whether the max_pages limit is reached at the current page
(`max_pages and (page_num - start_page + 1) >= max_pages`; a zero limit is
falsy in Python and disables the check). -/
def maxPagesReached (max_pages : Option Nat) (start_page page_num : Nat) : Bool :=
  match max_pages with
  | some m => decide (m ≠ 0 ∧ m ≤ page_num - start_page + 1)
  | none => false

/-- One iteration of the pagination loop.  Returns the new state and whether
the loop continues. -/
def scrapeStep (fetch : Nat → Option PageDoc) (max_pages : Option Nat)
    (start_page : Nat) (s : ScrapeState) : ScrapeState × Bool :=
  let pr := scrape_single_page (fetch s.page_num)
  let reviews := pr.1
  let has_content := pr.2
  let s := { s with fetched := s.fetched ++ [s.page_num] }
  if reviews ≠ [] then
    let s := { s with all_reviews := s.all_reviews ++ reviews, consecutive_empty := 0 }
    if maxPagesReached max_pages start_page s.page_num then (s, false)
    else ({ s with page_num := s.page_num + 1 }, true)
  else
    let s := { s with consecutive_empty := s.consecutive_empty + 1 }
    if has_content = false ∨ 3 ≤ s.consecutive_empty then (s, false)
    else if maxPagesReached max_pages start_page s.page_num then (s, false)
    else ({ s with page_num := s.page_num + 1 }, true)

/-- The fuelled pagination loop; fuel bounds the number of iterations, which
the source does not (a run over a site with endless non-empty pages does not
terminate). -/
def scrapeLoop (fetch : Nat → Option PageDoc) (max_pages : Option Nat)
    (start_page : Nat) : Nat → ScrapeState → ScrapeState
  | 0, s => s
  | f + 1, s =>
    match scrapeStep fetch max_pages start_page s with
    | (s2, false) => s2
    | (s2, true) => scrapeLoop fetch max_pages start_page f s2

/-- scrape_gsmarena_reviews from phone_review_url_scraper.py. -/
def scrape_gsmarena_reviews (fetch : Nat → Option PageDoc) (max_pages : Option Nat)
    (start_page fuel : Nat) : ScrapeState :=
  scrapeLoop fetch max_pages start_page fuel
    { all_reviews := [], page_num := start_page, consecutive_empty := 0, fetched := [] }

/-! ### Model of the Spec Extractor (phone_specs_scraper.py) -/

/-- A value of the specifications dictionary: the phone_name entry holds a
string, category entries hold field dictionaries. -/
inductive SpecEntry where
  | strV (v : List Char)
  | dict (m : List (List Char × List Char))
deriving DecidableEq, Repr

def SpecEntry.isDictE : SpecEntry → Bool
  | .strV _ => false
  | .dict _ => true

/-- The specifications dictionary, in insertion order. -/
abbrev Specs : Type := List (List Char × SpecEntry)

def specsHasKey (s : Specs) (k : List Char) : Bool :=
  s.any (fun p => p.1 = k)

/-- The number of category entries (dictionary-valued entries) of a
specifications dictionary. -/
def catCount (s : Specs) : Nat :=
  (s.filter (fun p => p.2.isDictE)).length

/-- A tr element of a spec table: its td texts, and its td texts filtered by
the ttl and nfo classes, each in document order. -/
structure SpecRowD where
  tds : List (List Char)
  ttl : List (List Char)
  nfo : List (List Char)
deriving DecidableEq, Repr

/-- A table element: the text of the nearest preceding th in document order
(find_previous), the text of the first th inside the table (find), and its rows. -/
structure SpecTableD where
  prevTh : Option (List Char)
  innerTh : Option (List Char)
  rows : List SpecRowD
deriving DecidableEq, Repr

/-- A parsed specification page: the optional title heading text, every table
of the page, and the tables of the specs-list div when that div is present. -/
structure SpecPage where
  title : Option (List Char)
  tables : List SpecTableD
  specsList : Option (List SpecTableD)
deriving DecidableEq, Repr

/-- Assignment `specifications[category][name] = value`; a KeyError (category
absent) or TypeError (category bound to the phone-name string) is an
exception, which the source catches by returning None from the whole
function. -/
def setFieldE (s : Specs) (cat name v : List Char) : Except Unit Specs :=
  match s.find? (fun p => p.1 = cat) with
  | some (_, .dict _) =>
    .ok (s.map (fun p =>
      match p with
      | (k, .dict m) => if k = cat then (k, .dict (alUpd m name v)) else p
      | _ => p))
  | some (_, .strV _) => .error ()
  | none => .error ()

/-- One row of the primary extraction: a row with at least two cells yields a
whitespace-collapsed name and value, stored when both are non-empty. -/
def primaryRow (cat : List Char) (s : Specs) (row : SpecRowD) : Except Unit Specs :=
  match row.tds with
  | c0 :: c1 :: _ =>
    let spec_name := collapseWs c0
    let spec_value := collapseWs c1
    if spec_name ≠ [] ∧ spec_value ≠ [] then setFieldE s cat spec_name spec_value
    else .ok s
  | _ => .ok s

/-- One table of the primary extraction. -/
def primaryTable (s : Specs) (t : SpecTableD) : Except Unit Specs := do
  let category := t.prevTh.getD ("General".toList)
  let s := if specsHasKey s category then s else s ++ [(category, .dict [])]
  t.rows.foldlM (primaryRow category) s

/-- The primary extraction of scrape_specifications: the title entry then the
table scan. -/
def primaryE (page : SpecPage) : Except Unit Specs :=
  let s0 : Specs :=
    match page.title with
    | some t => [("phone_name".toList, .strV t)]
    | none => []
  page.tables.foldlM primaryTable s0

/-- Assignment in the alternate method: the category was just re-bound to an
empty dictionary, so the entry is always dictionary-valued; the non-dict
branch is unreachable and keeps the state. -/
def setFieldD (s : Specs) (cat name v : List Char) : Specs :=
  s.map (fun p =>
    match p with
    | (k, .dict m) => if k = cat then (k, .dict (alUpd m name v)) else p
    | _ => p)

/-- One row of the alternate extraction: the class-tagged cells are zipped
pairwise when both lists are non-empty. -/
def altRow (cat : List Char) (s : Specs) (row : SpecRowD) : Specs :=
  if row.ttl ≠ [] ∧ row.nfo ≠ [] then
    (row.ttl.zip row.nfo).foldl (fun s pr =>
      if pr.1 ≠ [] ∧ pr.2 ≠ [] then setFieldD s cat pr.1 pr.2 else s) s
  else s

/-- One table of the alternate extraction: only tables with an inner th are
used; the category is re-bound to an empty dictionary. -/
def altTable (s : Specs) (t : SpecTableD) : Specs :=
  match t.innerTh with
  | some category =>
    let s := alUpd s category (.dict [])
    t.rows.foldl (altRow category) s
  | none => s

/-- The alternate extraction pass applied to the primary result. -/
def applyAlternate (page : SpecPage) (s : Specs) : Specs :=
  match page.specsList with
  | some tables => tables.foldl altTable s
  | none => s

/-- scrape_specifications from phone_specs_scraper.py: `none` models both a
fetch/parse exception and the exception path of the primary extraction. -/
def scrape_specifications (pageOpt : Option SpecPage) : Option Specs :=
  match pageOpt with
  | none => none
  | some page =>
    match primaryE page with
    | .error _ => none
    | .ok specifications =>
      some (if specifications.length ≤ 1 then applyAlternate page specifications
            else specifications)

/-! ## Helper lemmas on the string model -/

theorem mem_of_isPrefixOf {p s : List Char} (h : p.isPrefixOf s = true) {x : Char}
    (hx : x ∈ p) : x ∈ s := by
  induction p generalizing s with
  | nil => cases hx
  | cons a as ih =>
    cases s with
    | nil => simp [List.isPrefixOf] at h
    | cons b bs =>
      simp only [List.isPrefixOf, Bool.and_eq_true, beq_iff_eq] at h
      rcases List.mem_cons.mp hx with rfl | hx2
      · exact h.1 ▸ List.mem_cons_self _ _
      · exact List.mem_cons_of_mem _ (ih h.2 hx2)

theorem isPrefixOf_append_self (p t : List Char) : p.isPrefixOf (p ++ t) = true := by
  induction p with
  | nil => simp [List.isPrefixOf]
  | cons a as ih => simp [List.isPrefixOf, ih]

theorem isPrefixOf_cons_head {a : Char} {as : List Char} {b : Char} {bs : List Char}
    (h : (a :: as).isPrefixOf (b :: bs) = true) : a = b := by
  simp only [List.isPrefixOf, Bool.and_eq_true, beq_iff_eq] at h
  exact h.1

/-- When some character of the separator never occurs in the string, the
scan finds no occurrence and yields a single segment. -/
theorem pySplitF_no_occur {pat : List Char} {x : Char} (hxp : x ∈ pat) :
    ∀ (f : Nat) (s acc : List Char), s.length < f → x ∉ s →
      pySplitF pat f acc s = [acc.reverse ++ s] := by
  intro f
  induction f with
  | zero => intro s acc h; exact absurd h (by omega)
  | succ f ih =>
    intro s acc hlen hxs
    cases s with
    | nil => simp [pySplitF]
    | cons c rest =>
      have hpre : ¬(pat ≠ [] ∧ pat.isPrefixOf (c :: rest) = true) := by
        rintro ⟨-, hpre⟩
        exact hxs (mem_of_isPrefixOf hpre hxp)
      rw [pySplitF, if_neg hpre, ih rest (c :: acc) (by simpa using Nat.lt_of_succ_lt_succ hlen)
        (fun hm => hxs (List.mem_cons_of_mem _ hm))]
      simp

/-- Splitting a string of the form `a ++ domain ++ b` on the domain, when `a`
has no letter g and `b` has no slash: one occurrence, two segments. -/
theorem pySplitF_domain :
    ∀ (a : List Char), (∀ c ∈ a, c ≠ 'g') →
    ∀ (b : List Char), ('/' : Char) ∉ b →
    ∀ (f : Nat) (acc : List Char), (a ++ gsmDomChars ++ b).length < f →
      pySplitF gsmDomChars f acc (a ++ gsmDomChars ++ b) = [acc.reverse ++ a, b] := by
  intro a
  induction a with
  | nil =>
    intro _ b hb f acc hlen
    cases f with
    | zero => exact absurd hlen (by omega)
    | succ f =>
      have hcons : ([] : List Char) ++ gsmDomChars ++ b
          = 'g' :: ("smarena.com/".toList ++ b) := rfl
      rw [hcons, pySplitF, if_pos ⟨by decide, by
        rw [← hcons]; simp [isPrefixOf_append_self gsmDomChars b]⟩]
      have hdrop : ('g' :: ("smarena.com/".toList ++ b)).drop gsmDomChars.length = b := by
        rw [← hcons]; simp [List.drop_left gsmDomChars b]
      rw [hdrop, pySplitF_no_occur (show ('/' : Char) ∈ gsmDomChars by decide) f b []
        (by
          have hg : gsmDomChars.length = 13 := by decide
          simp [hg] at hlen ⊢
          omega) hb]
      simp
  | cons c a ih =>
    intro hc b hb f acc hlen
    cases f with
    | zero => exact absurd hlen (by omega)
    | succ f =>
      have hpre : ¬(gsmDomChars ≠ [] ∧ gsmDomChars.isPrefixOf (c :: (a ++ gsmDomChars ++ b)) = true) := by
        rintro ⟨-, hpre⟩
        have : ('g' : Char) = c := isPrefixOf_cons_head (by exact hpre)
        exact hc c (List.mem_cons_self _ _) this.symm
      have hshape : (c :: a) ++ gsmDomChars ++ b = c :: (a ++ gsmDomChars ++ b) := by simp
      rw [hshape, pySplitF, if_neg hpre,
        ih (fun x hx => hc x (List.mem_cons_of_mem _ hx)) b hb f (c :: acc)
          (by simp at hlen ⊢; omega)]
      simp

/-- Removing the ".php" occurrences of `s ++ ".php"` when `s` has no dot
strips exactly the suffix. -/
theorem replacePhpF_strip :
    ∀ (f : Nat) (s : List Char), s.length + 4 ≤ f → ('.' : Char) ∉ s →
      replacePhpF f (s ++ ".php".toList) = s := by
  intro f
  induction f with
  | zero => intro s h; exact absurd h (by omega)
  | succ f ih =>
    intro s hlen hds
    cases s with
    | nil =>
      show replacePhpF (f + 1) ('.' :: 'p' :: 'h' :: 'p' :: []) = []
      rw [replacePhpF, if_pos (by decide)]
      have hf : 3 ≤ f := by omega
      cases f with
      | zero => omega
      | succ f2 => simp [replacePhpF]
    | cons c s =>
      have hcd : ¬ (".php".toList.isPrefixOf (c :: (s ++ ".php".toList)) = true) := by
        intro hpre
        have : ('.' : Char) = c := isPrefixOf_cons_head hpre
        exact hds (this ▸ List.mem_cons_self _ _)
      have hshape : (c :: s) ++ ".php".toList = c :: (s ++ ".php".toList) := rfl
      rw [hshape, replacePhpF, if_neg hcd,
        ih s (by simp at hlen ⊢; omega) (fun hm => hds (List.mem_cons_of_mem _ hm))]

theorem takeWhile_middle {p : Char → Bool} :
    ∀ (x : List Char), (∀ c ∈ x, p c = true) → ∀ {y : Char}, p y = false → ∀ (z : List Char),
      (x ++ y :: z).takeWhile p = x ∧ (x ++ y :: z).dropWhile p = y :: z := by
  intro x
  induction x with
  | nil => intro _ y hy z; simp [List.takeWhile, List.dropWhile, hy]
  | cons a as ih =>
    intro hx y hy z
    have ha : p a = true := hx a (List.mem_cons_self _ _)
    have := ih (fun c hc => hx c (List.mem_cons_of_mem _ hc)) hy z
    simp [List.takeWhile, List.dropWhile, ha, this.1, this.2]

theorem rsplit1_no_sep {sep : Char} {s : List Char} (h : sep ∉ s) :
    rsplit1 sep s = [s] := by
  have : s.reverse.dropWhile (fun c => c ≠ sep) = [] := by
    rw [List.dropWhile_eq_nil_iff]
    intro x hx
    simp only [ne_eq, decide_eq_true_eq]
    rintro rfl
    exact h (List.mem_reverse.mp hx)
  rw [rsplit1]
  simp only [this]

theorem rsplit1_last {sep : Char} (a : List Char) {b : List Char} (hb : sep ∉ b) :
    rsplit1 sep (a ++ sep :: b) = [a, b] := by
  have hrev : (a ++ sep :: b).reverse = b.reverse ++ sep :: a.reverse := by
    simp
  have hall : ∀ c ∈ b.reverse, (fun c => decide (c ≠ sep)) c = true := by
    intro c hc
    simp only [decide_eq_true_eq]
    rintro rfl
    exact hb (List.mem_reverse.mp hc)
  have hy : (fun c => decide (c ≠ sep)) sep = false := by simp
  have hmid := takeWhile_middle b.reverse hall hy a.reverse
  rw [rsplit1]
  simp only [hrev, hmid.1, hmid.2, List.reverse_reverse]

theorem containsSub_left (pat b : List Char) : containsSub pat (pat ++ b) = true := by
  cases h : pat ++ b with
  | nil =>
    have : pat = [] := by
      cases pat with
      | nil => rfl
      | cons c cs => simp at h
    simp [containsSub, this]
  | cons c rest =>
    rw [containsSub, ← h, isPrefixOf_append_self, Bool.true_or]

theorem containsSub_append (a pat b : List Char) : containsSub pat (a ++ pat ++ b) = true := by
  induction a with
  | nil => simpa using containsSub_left pat b
  | cons c a ih =>
    show containsSub pat (c :: (a ++ pat ++ b)) = true
    rw [containsSub, ih, Bool.or_true]

theorem digit_ne {c : Char} (h : c.isDigit = true) : c ≠ '/' ∧ c ≠ '.' ∧ c ≠ '-' := by
  refine ⟨?_, ?_, ?_⟩ <;> (rintro rfl; exact absurd h (by decide))

/-! ## Claim C1: construct_pictures_url -/

/-- Claim C1: for every spec-page URL of the form
root, slug, hyphen, numeric id, ".php" (the slug free of slashes and dots,
the id made of digits), construct_pictures_url returns the pictures URL with
"-pictures-" spliced in before the id; and for every input whose remainder
after the domain strip and the ".php" removal has no hyphen, it returns none. -/
theorem construct_pictures_url_spec (slug pid u : List Char)
    (h1 : slug ≠ []) (h2 : pid ≠ [])
    (h3 : ∀ c ∈ slug, c ≠ '/' ∧ c ≠ '.')
    (h4 : ∀ c ∈ pid, c.isDigit = true) :
    construct_pictures_url (siteRoot ++ slug ++ ['-'] ++ pid ++ ".php".toList)
        = some (siteRoot ++ slug ++ "-pictures-".toList ++ pid ++ ".php".toList) ∧
      (('-' : Char) ∉ replacePhp (stripDomain u) → construct_pictures_url u = none) := by
  constructor
  · set tail := slug ++ ['-'] ++ pid ++ ".php".toList with htail
    have hshape : siteRoot ++ slug ++ ['-'] ++ pid ++ ".php".toList
        = "https://www.".toList ++ gsmDomChars ++ tail := by
      simp [siteRoot, gsmDomChars, htail]
    have hnoslash : ('/' : Char) ∉ tail := by
      intro hm
      rw [htail] at hm
      simp only [List.mem_append] at hm
      rcases hm with ((hs | hd) | hp) | hphp
      · exact (h3 _ hs).1 rfl
      · simp at hd
      · exact (digit_ne (h4 _ hp)).1 rfl
      · simp at hphp
    have hsplit : stripDomain (siteRoot ++ slug ++ ['-'] ++ pid ++ ".php".toList) = tail := by
      rw [stripDomain, hshape, if_pos]
      · rw [pySplit, pySplitF_domain "https://www.".toList (by decide) tail hnoslash _ []
          (Nat.lt_succ_self _)]
        simp [List.getLastD]
      · have := containsSub_append "https://www.".toList gsmDomChars tail
        simpa using this
    have hnodot : ('.' : Char) ∉ slug ++ ['-'] ++ pid := by
      intro hm
      simp only [List.mem_append] at hm
      rcases hm with (hs | hd) | hp
      · exact (h3 _ hs).2 rfl
      · simp at hd
      · exact (digit_ne (h4 _ hp)).2.1 rfl
    have hphp : replacePhp tail = slug ++ ['-'] ++ pid := by
      have hshape2 : tail = (slug ++ ['-'] ++ pid) ++ ".php".toList := by
        rw [htail]
      rw [replacePhp, hshape2]
      exact replacePhpF_strip _ _ (by simp; omega) hnodot
    have hnodash : ('-' : Char) ∉ pid := fun hm => (digit_ne (h4 _ hm)).2.2 rfl
    have hrs : rsplit1 '-' (slug ++ ['-'] ++ pid) = [slug, pid] := by
      have : slug ++ ['-'] ++ pid = slug ++ '-' :: pid := by simp
      rw [this, rsplit1_last slug hnodash]
    rw [construct_pictures_url, hsplit, hphp, hrs]
  · intro hnd
    rw [construct_pictures_url, rsplit1_no_sep hnd]

/-- Witness for C1 at the end-to-end example of the specification. -/
theorem construct_pictures_url_spec_witness :
    construct_pictures_url
        (siteRoot ++ "vivo_x300_pro_5g".toList ++ ['-'] ++ "14225".toList ++ ".php".toList)
      = some (siteRoot ++ "vivo_x300_pro_5g".toList ++ "-pictures-".toList
          ++ "14225".toList ++ ".php".toList) ∧
    (('-' : Char) ∉ replacePhp (stripDomain ("https://www.gsmarena.com/nodash.php".toList)) →
      construct_pictures_url ("https://www.gsmarena.com/nodash.php".toList) = none) :=
  construct_pictures_url_spec ("vivo_x300_pro_5g".toList) ("14225".toList)
    ("https://www.gsmarena.com/nodash.php".toList)
    (by decide) (by decide) (by decide) (by decide)

/-! ## Lemmas on stripping and whitespace collapsing -/

theorem mem_dropTrail {p : Char → Bool} : ∀ {s : List Char} {c : Char},
    c ∈ dropTrail p s → c ∈ s := by
  intro s
  induction s with
  | nil => intro c h; simp [dropTrail] at h
  | cons a rest ih =>
    intro c h
    simp only [dropTrail] at h
    cases hr : dropTrail p rest with
    | nil =>
      rw [hr] at h
      by_cases hp : p a
      · simp [hp] at h
      · simp [hp] at h
        simp [h]
    | cons b bs =>
      rw [hr] at h
      rcases List.mem_cons.mp h with rfl | h2
      · exact List.mem_cons_self _ _
      · exact List.mem_cons_of_mem _ (ih (hr ▸ h2))

theorem dropTrail_getLast_not {p : Char → Bool} : ∀ {s : List Char} {c : Char},
    (dropTrail p s).getLast? = some c → p c = false := by
  intro s
  induction s with
  | nil => intro c h; simp [dropTrail] at h
  | cons a rest ih =>
    intro c h
    simp only [dropTrail] at h
    cases hr : dropTrail p rest with
    | nil =>
      rw [hr] at h
      by_cases hp : p a
      · simp [hp] at h
      · simp [hp] at h
        subst h
        simpa using hp
    | cons b bs =>
      rw [hr] at h
      rw [List.getLast?_cons_cons] at h
      exact ih (hr ▸ h)

theorem dropTrail_head {p : Char → Bool} {s : List Char} {c : Char}
    (h : (dropTrail p s).head? = some c) : s.head? = some c := by
  cases s with
  | nil => simp [dropTrail] at h
  | cons a rest =>
    simp only [dropTrail] at h
    cases hr : dropTrail p rest with
    | nil =>
      rw [hr] at h
      by_cases hp : p a
      · simp [hp] at h
      · simp [hp] at h
        simp [h]
    | cons b bs =>
      rw [hr] at h
      simp only [List.head?_cons, Option.some.injEq] at h
      simp [h]

theorem dropTrail_eq_append (p : Char → Bool) : ∀ s : List Char,
    ∃ t, s = dropTrail p s ++ t := by
  intro s
  induction s with
  | nil => exact ⟨[], rfl⟩
  | cons a rest ih =>
    obtain ⟨t, ht⟩ := ih
    cases hr : dropTrail p rest with
    | nil =>
      by_cases hp : p a
      · exact ⟨a :: rest, by simp [dropTrail, hr, hp]⟩
      · refine ⟨rest, ?_⟩
        simp [dropTrail, hr, hp]
    | cons b bs =>
      refine ⟨t, ?_⟩
      simp only [dropTrail, hr]
      rw [List.cons_append, ← hr, ← ht]

theorem dropTrail_eq_self {p : Char → Bool} : ∀ {s : List Char},
    (∀ c, s.getLast? = some c → p c = false) → dropTrail p s = s := by
  intro s
  induction s with
  | nil => intro _; rfl
  | cons a rest ih =>
    intro h
    cases rest with
    | nil =>
      have := h a (by simp)
      simp [dropTrail, this]
    | cons b bs =>
      have hr : dropTrail p (b :: bs) = b :: bs :=
        ih (fun c hc => h c (by rw [List.getLast?_cons_cons]; exact hc))
      have hdef : dropTrail p (a :: b :: bs)
          = match dropTrail p (b :: bs) with
            | [] => if p a = true then [] else [a]
            | r => a :: r := rfl
      rw [hdef, hr]

theorem dropWhile_eq_self {p : Char → Bool} {s : List Char}
    (h : ∀ c, s.head? = some c → p c = false) : s.dropWhile p = s := by
  cases s with
  | nil => rfl
  | cons a rest =>
    rw [List.dropWhile_cons, h a (by simp)]
    simp

theorem head?_dropWhile_not {p : Char → Bool} : ∀ {l : List Char} {c : Char},
    (l.dropWhile p).head? = some c → p c = false := by
  intro l
  induction l with
  | nil => intro c h; simp at h
  | cons a t ih =>
    intro c h
    rw [List.dropWhile_cons] at h
    by_cases hp : p a
    · rw [if_pos hp] at h
      exact ih h
    · rw [if_neg hp, List.head?_cons] at h
      injection h with h
      subst h
      simpa using hp

theorem head?_take {l : List Char} {n : Nat} (h : 0 < n) : (l.take n).head? = l.head? := by
  cases l with
  | nil => simp
  | cons a t =>
    cases n with
    | zero => omega
    | succ m => simp [List.take_succ_cons]

theorem mem_collapseWs_ws : ∀ {s : List Char} {c : Char},
    c ∈ collapseWs s → (c = ' ' ∨ (c ∈ s ∧ isSpacePy c = false)) := by
  intro s
  induction s with
  | nil => intro c h; simp [collapseWs] at h
  | cons a rest ih =>
    intro c h
    cases rest with
    | nil =>
      by_cases hp : isSpacePy a
      · simp [collapseWs, hp] at h
        exact Or.inl h
      · simp [collapseWs, hp] at h
        subst h
        exact Or.inr ⟨List.mem_cons_self _ _, by simpa using hp⟩
    | cons b bs =>
      simp only [collapseWs] at h
      by_cases hpa : isSpacePy a
      · by_cases hpb : isSpacePy b
        · simp only [hpa, hpb, if_true] at h
          rcases ih h with h1 | h2
          · exact Or.inl h1
          · exact Or.inr ⟨List.mem_cons_of_mem _ h2.1, h2.2⟩
        · simp only [hpa, hpb, if_true, Bool.not_eq_true, if_false] at h
          rcases List.mem_cons.mp h with rfl | h2
          · exact Or.inl rfl
          · rcases ih h2 with h1 | h3
            · exact Or.inl h1
            · exact Or.inr ⟨List.mem_cons_of_mem _ h3.1, h3.2⟩
      · simp only [hpa, Bool.not_eq_true, if_false] at h
        rcases List.mem_cons.mp h with rfl | h2
        · exact Or.inr ⟨List.mem_cons_self _ _, by simpa using hpa⟩
        · rcases ih h2 with h1 | h3
          · exact Or.inl h1
          · exact Or.inr ⟨List.mem_cons_of_mem _ h3.1, h3.2⟩

/-! ## Claim C3: sanitize_filename -/

/-- Claim C3 as stated by the specification: the output of sanitize_filename
has no invalid character, length at most 100, and neither a leading nor a
trailing space or dot. -/
def sanitizeClaim (f : List Char) : Prop :=
  (sanitize_filename f).all (fun c => !(sanitizeInvalid c)) = true ∧
  (sanitize_filename f).length ≤ 100 ∧
  (match (sanitize_filename f).head? with
   | some c => !(dotSpace c)
   | none => true) = true ∧
  (match (sanitize_filename f).getLast? with
   | some c => !(dotSpace c)
   | none => true) = true

/-- Counterexample to claim C3 as stated: on ninety-nine letters, a dot and a
letter (101 characters), the pipeline leaves the string unchanged, the final
truncation keeps the first 100 characters, and the result ends with a dot. -/
instance sanitizeClaimDec (f : List Char) : Decidable (sanitizeClaim f) := by
  unfold sanitizeClaim
  infer_instance

theorem sanitize_filename_claim_cex :
    ¬ sanitizeClaim (List.replicate 99 'a' ++ ['.', 'a']) := by decide

/-- Claim C3 (amended): the output of sanitize_filename contains none of the
nine invalid characters and has length at most 100; it never starts with a
space or a dot; and it never ends with a space or a dot unless the final
truncation fired, in which case its length is exactly 100 (truncation keeps
a prefix and can expose a space or dot, as the counterexample shows). -/
theorem sanitize_filename_safe (f : List Char) :
    (∀ c ∈ sanitize_filename f, sanitizeInvalid c = false) ∧
    (sanitize_filename f).length ≤ 100 ∧
    (∀ c, (sanitize_filename f).head? = some c → dotSpace c = false) ∧
    ((sanitize_filename f).length = 100 ∨
      (∀ c, (sanitize_filename f).getLast? = some c → dotSpace c = false)) := by
  have hmem : ∀ c ∈ sanitize_core f, sanitizeInvalid c = false := by
    intro c hc
    simp only [sanitize_core, stripBy, stripPy] at hc
    have h2 := (List.dropWhile_sublist dotSpace).mem (mem_dropTrail hc)
    have h4 := (List.dropWhile_sublist isSpacePy).mem (mem_dropTrail h2)
    rcases mem_collapseWs_ws h4 with rfl | h3
    · decide
    · rcases List.mem_map.mp h3.1 with ⟨x, _, hx⟩
      by_cases hi : sanitizeInvalid x
      · rw [if_pos hi] at hx
        subst hx
        decide
      · rw [if_neg hi] at hx
        subst hx
        simpa using hi
  have hhead : ∀ c, (sanitize_core f).head? = some c → dotSpace c = false := by
    intro c hc
    simp only [sanitize_core, stripBy] at hc
    exact head?_dropWhile_not (dropTrail_head hc)
  have hlast : ∀ c, (sanitize_core f).getLast? = some c → dotSpace c = false := by
    intro c hc
    simp only [sanitize_core, stripBy] at hc
    exact dropTrail_getLast_not hc
  by_cases h100 : 100 < (sanitize_core f).length
  · have hval : sanitize_filename f = (sanitize_core f).take 100 := by
      simp only [sanitize_filename, if_pos h100]
    have hlen : (sanitize_filename f).length = 100 := by
      rw [hval, List.length_take]
      omega
    refine ⟨?_, by omega, ?_, Or.inl hlen⟩
    · intro c hc
      exact hmem c (List.take_subset _ _ (hval ▸ hc))
    · intro c hc
      exact hhead c (by rw [hval, head?_take (by norm_num)] at hc; exact hc)
  · have hval : sanitize_filename f = sanitize_core f := by
      simp only [sanitize_filename, if_neg h100]
    rw [hval]
    exact ⟨hmem, by omega, hhead, Or.inr hlast⟩

/-- Witness for C3 at a concrete input containing invalid characters,
whitespace and a review phrase. -/
theorem sanitize_filename_safe_witness :
    (∀ c ∈ sanitize_filename ("My phone: a/b Review ".toList), sanitizeInvalid c = false) ∧
    (sanitize_filename ("My phone: a/b Review ".toList)).length ≤ 100 ∧
    (∀ c, (sanitize_filename ("My phone: a/b Review ".toList)).head? = some c →
      dotSpace c = false) ∧
    ((sanitize_filename ("My phone: a/b Review ".toList)).length = 100 ∨
      (∀ c, (sanitize_filename ("My phone: a/b Review ".toList)).getLast? = some c →
        dotSpace c = false)) :=
  sanitize_filename_safe ("My phone: a/b Review ".toList)

/-! ## Claim C4: scrape_images_from_pictures_page -/

/-- The candidate URLs contributed by the pictures-list hrefs, in order. -/
def linkCands : List (List Char) → List (List Char)
  | [] => []
  | href :: rest =>
    if hrefHasExt href then urljoin' href :: linkCands rest else linkCands rest

/-- The candidate URLs contributed by the broadened img scan, in order. -/
def scanCands : List ImgTag → List (List Char)
  | [] => []
  | tag :: rest =>
    let src := tag.src.getD []
    if (skipMarkers.any (fun m => containsSub m (lowerStr src))) then scanCands rest
    else if src ≠ [] ∧ srcHasExt src then thumbFix (urljoin' src) :: scanCands rest
    else scanCands rest

theorem addLinks_cons_noext {m : Nat} {href : List Char} {rest acc : List (List Char)}
    (he : hrefHasExt href = false) :
    addLinks m (href :: rest) acc = addLinks m rest acc := by
  simp only [addLinks]
  rw [if_neg (by simp [he])]

theorem addLinks_cons_dup {m : Nat} {href : List Char} {rest acc : List (List Char)}
    (he : hrefHasExt href = true) (hm : urljoin' href ∈ acc) :
    addLinks m (href :: rest) acc = addLinks m rest acc := by
  simp only [addLinks]
  rw [if_pos he, if_pos hm]

theorem addLinks_cons_break {m : Nat} {href : List Char} {rest acc : List (List Char)}
    (he : hrefHasExt href = true) (hm : urljoin' href ∉ acc)
    (hb : m ≤ (acc ++ [urljoin' href]).length) :
    addLinks m (href :: rest) acc = acc ++ [urljoin' href] := by
  simp only [addLinks]
  rw [if_pos he, if_neg hm, if_pos hb]

theorem addLinks_cons_go {m : Nat} {href : List Char} {rest acc : List (List Char)}
    (he : hrefHasExt href = true) (hm : urljoin' href ∉ acc)
    (hb : ¬ m ≤ (acc ++ [urljoin' href]).length) :
    addLinks m (href :: rest) acc = addLinks m rest (acc ++ [urljoin' href]) := by
  simp only [addLinks]
  rw [if_pos he, if_neg hm, if_neg hb]

theorem linkCands_cons_ext {href : List Char} {rest : List (List Char)}
    (he : hrefHasExt href = true) :
    linkCands (href :: rest) = urljoin' href :: linkCands rest := by
  simp only [linkCands]
  rw [if_pos he]

theorem linkCands_cons_noext {href : List Char} {rest : List (List Char)}
    (he : hrefHasExt href = false) :
    linkCands (href :: rest) = linkCands rest := by
  simp only [linkCands]
  rw [if_neg (by simp [he])]

theorem addLinks_decomp (m : Nat) : ∀ (hrefs acc : List (List Char)),
    ∃ l, addLinks m hrefs acc = acc ++ l ∧ l.Sublist (linkCands hrefs) := by
  intro hrefs
  induction hrefs with
  | nil => intro acc; exact ⟨[], by simp [addLinks], by simp [linkCands]⟩
  | cons href rest ih =>
    intro acc
    by_cases he : hrefHasExt href
    · by_cases hm : urljoin' href ∈ acc
      · obtain ⟨l, hl, hs⟩ := ih acc
        exact ⟨l, by rw [addLinks_cons_dup he hm, hl],
          by rw [linkCands_cons_ext he]; exact hs.cons _⟩
      · by_cases hb : m ≤ (acc ++ [urljoin' href]).length
        · refine ⟨[urljoin' href], by rw [addLinks_cons_break he hm hb], ?_⟩
          rw [linkCands_cons_ext he]
          exact (List.nil_sublist _).cons₂ _
        · obtain ⟨l, hl, hs⟩ := ih (acc ++ [urljoin' href])
          refine ⟨urljoin' href :: l, ?_, ?_⟩
          · rw [addLinks_cons_go he hm hb, hl]
            simp
          · rw [linkCands_cons_ext he]
            exact hs.cons₂ _
    · obtain ⟨l, hl, hs⟩ := ih acc
      exact ⟨l, by rw [addLinks_cons_noext (by simpa using he), hl],
        by rw [linkCands_cons_noext (by simpa using he)]; exact hs⟩

theorem nodup_snoc {acc : List (List Char)} {u : List Char}
    (h : acc.Nodup) (hm : u ∉ acc) : (acc ++ [u]).Nodup := by
  rw [List.nodup_append]
  refine ⟨h, List.nodup_singleton _, ?_⟩
  intro x hx hx2
  simp only [List.mem_singleton] at hx2
  subst hx2
  exact hm hx

theorem addLinks_nodup (m : Nat) : ∀ (hrefs acc : List (List Char)),
    acc.Nodup → (addLinks m hrefs acc).Nodup := by
  intro hrefs
  induction hrefs with
  | nil => intro acc h; simpa [addLinks] using h
  | cons href rest ih =>
    intro acc h
    by_cases he : hrefHasExt href
    · by_cases hm : urljoin' href ∈ acc
      · rw [addLinks_cons_dup he hm]
        exact ih acc h
      · by_cases hb : m ≤ (acc ++ [urljoin' href]).length
        · rw [addLinks_cons_break he hm hb]
          exact nodup_snoc h hm
        · rw [addLinks_cons_go he hm hb]
          exact ih _ (nodup_snoc h hm)
    · rw [addLinks_cons_noext (by simpa using he)]
      exact ih acc h

theorem scanPhase_cons_skip {m : Nat} {tag : ImgTag} {rest : List ImgTag}
    {acc : List (List Char)}
    (hskip : (skipMarkers.any (fun mk => containsSub mk (lowerStr (tag.src.getD [])))) = true) :
    scanPhase m (tag :: rest) acc = scanPhase m rest acc := by
  simp only [scanPhase]
  rw [if_pos hskip]

theorem scanPhase_cons_dup {m : Nat} {tag : ImgTag} {rest : List ImgTag}
    {acc : List (List Char)}
    (hskip : ¬ (skipMarkers.any (fun mk => containsSub mk (lowerStr (tag.src.getD [])))) = true)
    (hsr : (tag.src.getD []) ≠ [] ∧ srcHasExt (tag.src.getD []) = true)
    (hm : thumbFix (urljoin' (tag.src.getD [])) ∈ acc) :
    scanPhase m (tag :: rest) acc = scanPhase m rest acc := by
  simp only [scanPhase]
  rw [if_neg hskip, if_pos hsr, if_pos hm]

theorem scanPhase_cons_break {m : Nat} {tag : ImgTag} {rest : List ImgTag}
    {acc : List (List Char)}
    (hskip : ¬ (skipMarkers.any (fun mk => containsSub mk (lowerStr (tag.src.getD [])))) = true)
    (hsr : (tag.src.getD []) ≠ [] ∧ srcHasExt (tag.src.getD []) = true)
    (hm : thumbFix (urljoin' (tag.src.getD [])) ∉ acc)
    (hb : m ≤ (acc ++ [thumbFix (urljoin' (tag.src.getD []))]).length) :
    scanPhase m (tag :: rest) acc = acc ++ [thumbFix (urljoin' (tag.src.getD []))] := by
  simp only [scanPhase]
  rw [if_neg hskip, if_pos hsr, if_neg hm, if_pos hb]

theorem scanPhase_cons_go {m : Nat} {tag : ImgTag} {rest : List ImgTag}
    {acc : List (List Char)}
    (hskip : ¬ (skipMarkers.any (fun mk => containsSub mk (lowerStr (tag.src.getD [])))) = true)
    (hsr : (tag.src.getD []) ≠ [] ∧ srcHasExt (tag.src.getD []) = true)
    (hm : thumbFix (urljoin' (tag.src.getD [])) ∉ acc)
    (hb : ¬ m ≤ (acc ++ [thumbFix (urljoin' (tag.src.getD []))]).length) :
    scanPhase m (tag :: rest) acc
      = scanPhase m rest (acc ++ [thumbFix (urljoin' (tag.src.getD []))]) := by
  simp only [scanPhase]
  rw [if_neg hskip, if_pos hsr, if_neg hm, if_neg hb]

theorem scanPhase_cons_nosrc {m : Nat} {tag : ImgTag} {rest : List ImgTag}
    {acc : List (List Char)}
    (hskip : ¬ (skipMarkers.any (fun mk => containsSub mk (lowerStr (tag.src.getD [])))) = true)
    (hsr : ¬ ((tag.src.getD []) ≠ [] ∧ srcHasExt (tag.src.getD []) = true)) :
    scanPhase m (tag :: rest) acc = scanPhase m rest acc := by
  simp only [scanPhase]
  rw [if_neg hskip, if_neg hsr]

theorem scanCands_cons_skip {tag : ImgTag} {rest : List ImgTag}
    (hskip : (skipMarkers.any (fun mk => containsSub mk (lowerStr (tag.src.getD [])))) = true) :
    scanCands (tag :: rest) = scanCands rest := by
  simp only [scanCands]
  rw [if_pos hskip]

theorem scanCands_cons_keep {tag : ImgTag} {rest : List ImgTag}
    (hskip : ¬ (skipMarkers.any (fun mk => containsSub mk (lowerStr (tag.src.getD [])))) = true)
    (hsr : (tag.src.getD []) ≠ [] ∧ srcHasExt (tag.src.getD []) = true) :
    scanCands (tag :: rest) = thumbFix (urljoin' (tag.src.getD [])) :: scanCands rest := by
  simp only [scanCands]
  rw [if_neg hskip, if_pos hsr]

theorem scanCands_cons_nosrc {tag : ImgTag} {rest : List ImgTag}
    (hskip : ¬ (skipMarkers.any (fun mk => containsSub mk (lowerStr (tag.src.getD [])))) = true)
    (hsr : ¬ ((tag.src.getD []) ≠ [] ∧ srcHasExt (tag.src.getD []) = true)) :
    scanCands (tag :: rest) = scanCands rest := by
  simp only [scanCands]
  rw [if_neg hskip, if_neg hsr]

theorem scanPhase_decomp (m : Nat) : ∀ (tags : List ImgTag) (acc : List (List Char)),
    ∃ l, scanPhase m tags acc = acc ++ l ∧ l.Sublist (scanCands tags) := by
  intro tags
  induction tags with
  | nil => intro acc; exact ⟨[], by simp [scanPhase], by simp [scanCands]⟩
  | cons tag rest ih =>
    intro acc
    by_cases hskip : (skipMarkers.any (fun mk => containsSub mk (lowerStr (tag.src.getD [])))) = true
    · obtain ⟨l, hl, hs⟩ := ih acc
      exact ⟨l, by rw [scanPhase_cons_skip hskip, hl],
        by rw [scanCands_cons_skip hskip]; exact hs⟩
    · by_cases hsr : (tag.src.getD []) ≠ [] ∧ srcHasExt (tag.src.getD []) = true
      · by_cases hm : thumbFix (urljoin' (tag.src.getD [])) ∈ acc
        · obtain ⟨l, hl, hs⟩ := ih acc
          exact ⟨l, by rw [scanPhase_cons_dup hskip hsr hm, hl],
            by rw [scanCands_cons_keep hskip hsr]; exact hs.cons _⟩
        · by_cases hb : m ≤ (acc ++ [thumbFix (urljoin' (tag.src.getD []))]).length
          · refine ⟨[thumbFix (urljoin' (tag.src.getD []))],
              by rw [scanPhase_cons_break hskip hsr hm hb], ?_⟩
            rw [scanCands_cons_keep hskip hsr]
            exact (List.nil_sublist _).cons₂ _
          · obtain ⟨l, hl, hs⟩ := ih (acc ++ [thumbFix (urljoin' (tag.src.getD []))])
            refine ⟨thumbFix (urljoin' (tag.src.getD [])) :: l, ?_, ?_⟩
            · rw [scanPhase_cons_go hskip hsr hm hb, hl]
              simp
            · rw [scanCands_cons_keep hskip hsr]
              exact hs.cons₂ _
      · obtain ⟨l, hl, hs⟩ := ih acc
        exact ⟨l, by rw [scanPhase_cons_nosrc hskip hsr, hl],
          by rw [scanCands_cons_nosrc hskip hsr]; exact hs⟩

theorem scanPhase_nodup (m : Nat) : ∀ (tags : List ImgTag) (acc : List (List Char)),
    acc.Nodup → (scanPhase m tags acc).Nodup := by
  intro tags
  induction tags with
  | nil => intro acc h; simpa [scanPhase] using h
  | cons tag rest ih =>
    intro acc h
    by_cases hskip : (skipMarkers.any (fun mk => containsSub mk (lowerStr (tag.src.getD [])))) = true
    · rw [scanPhase_cons_skip hskip]
      exact ih acc h
    · by_cases hsr : (tag.src.getD []) ≠ [] ∧ srcHasExt (tag.src.getD []) = true
      · by_cases hm : thumbFix (urljoin' (tag.src.getD [])) ∈ acc
        · rw [scanPhase_cons_dup hskip hsr hm]
          exact ih acc h
        · by_cases hb : m ≤ (acc ++ [thumbFix (urljoin' (tag.src.getD []))]).length
          · rw [scanPhase_cons_break hskip hsr hm hb]
            exact nodup_snoc h hm
          · rw [scanPhase_cons_go hskip hsr hm hb]
            exact ih _ (nodup_snoc h hm)
      · rw [scanPhase_cons_nosrc hskip hsr]
        exact ih acc h

theorem mainPhase_nodup (p : PicturesPage) : (mainPhase p).Nodup := by
  rcases p with ⟨md, pl, ai⟩
  rcases md with _ | d
  · simp [mainPhase]
  · rcases d with ⟨im⟩
    rcases im with _ | tag
    · simp [mainPhase]
    · rcases tag with ⟨src⟩
      rcases src with _ | sv
      · simp [mainPhase]
      · by_cases h : sv = [] <;> simp [mainPhase, h]

/-- Claim C4: for every parsed pictures page and configured maximum, the
discovered image-URL list has length at most the maximum, has no duplicates,
and is ordered main image first, then a subsequence of the pictures-list
candidates in order, then a subsequence of the broadened-scan candidates in
order, truncated to the maximum. -/
theorem scrape_images_bounded (p : PicturesPage) (max_images : Nat) :
    (scrape_images_from_pictures_page (some p) max_images).length ≤ max_images ∧
    (scrape_images_from_pictures_page (some p) max_images).Nodup ∧
    ∃ l2 l3, scrape_images_from_pictures_page (some p) max_images
        = (mainPhase p ++ l2 ++ l3).take max_images ∧
      l2.Sublist (match p.picturesList with | some pl => linkCands pl.hrefs | none => []) ∧
      l3.Sublist (scanCands (scanTags p)) := by
  have h2 : ∃ l2,
      (match p.picturesList with
        | some pl => addLinks max_images pl.hrefs (mainPhase p)
        | none => mainPhase p) = mainPhase p ++ l2 ∧
      l2.Sublist (match p.picturesList with | some pl => linkCands pl.hrefs | none => []) := by
    rcases hpl : p.picturesList with _ | pl
    · exact ⟨[], by simp, by simp⟩
    · obtain ⟨l, hl, hs⟩ := addLinks_decomp max_images pl.hrefs (mainPhase p)
      exact ⟨l, hl, hs⟩
  obtain ⟨l2, hl2, hs2⟩ := h2
  have h3 : ∃ l3,
      (if (mainPhase p ++ l2).length ≤ 1 then
        scanPhase max_images (scanTags p) (mainPhase p ++ l2)
      else mainPhase p ++ l2) = (mainPhase p ++ l2) ++ l3 ∧
      l3.Sublist (scanCands (scanTags p)) := by
    by_cases hc : (mainPhase p ++ l2).length ≤ 1
    · obtain ⟨l, hl, hs⟩ := scanPhase_decomp max_images (scanTags p) (mainPhase p ++ l2)
      exact ⟨l, by rw [if_pos hc, hl], hs⟩
    · exact ⟨[], by rw [if_neg hc]; simp, List.nil_sublist _⟩
  obtain ⟨l3, hl3, hs3⟩ := h3
  have haccnd : (mainPhase p ++ l2).Nodup := by
    rw [← hl2]
    rcases hpl : p.picturesList with _ | pl
    · exact mainPhase_nodup p
    · exact addLinks_nodup _ _ _ (mainPhase_nodup p)
  have hval : scrape_images_from_pictures_page (some p) max_images
      = ((mainPhase p ++ l2) ++ l3).take max_images := by
    simp only [scrape_images_from_pictures_page]
    rw [hl2, hl3]
  have hnodup0 : ((mainPhase p ++ l2) ++ l3).Nodup := by
    rw [← hl3]
    by_cases hc : (mainPhase p ++ l2).length ≤ 1
    · rw [if_pos hc]
      exact scanPhase_nodup _ _ _ haccnd
    · rw [if_neg hc]
      exact haccnd
  refine ⟨?_, ?_, l2, l3, by rw [hval, List.append_assoc], hs2, hs3⟩
  · rw [hval]
    exact List.length_take_le _ _
  · rw [hval]
    exact (List.take_sublist _ _).nodup hnodup0

/-! ## Claim C7: clean_phone_name idempotence -/

/-- No two adjacent whitespace characters. -/
def noAdjWs : List Char → Bool
  | c :: d :: rest => (!(isSpacePy c && isSpacePy d)) && noAdjWs (d :: rest)
  | _ => true

theorem collapseWs_head_not_ws {d : Char} (rest : List Char) (h : isSpacePy d = false) :
    ∃ t, collapseWs (d :: rest) = d :: t := by
  cases rest with
  | nil => exact ⟨[], by simp [collapseWs, h]⟩
  | cons e es => exact ⟨collapseWs (e :: es), by simp [collapseWs, h]⟩

theorem noAdjWs_cons {c : Char} {t : List Char} (hc : isSpacePy c = false)
    (ht : noAdjWs t = true) : noAdjWs (c :: t) = true := by
  cases t with
  | nil => rfl
  | cons x xs => simp [noAdjWs, hc, ht]

theorem noAdjWs_tail {a : Char} {t : List Char} (h : noAdjWs (a :: t) = true) :
    noAdjWs t = true := by
  cases t with
  | nil => rfl
  | cons x xs =>
    simp only [noAdjWs, Bool.and_eq_true] at h
    exact h.2

theorem collapseWs_noAdj : ∀ s : List Char, noAdjWs (collapseWs s) = true := by
  intro s
  induction s with
  | nil => rfl
  | cons a rest ih =>
    cases rest with
    | nil => by_cases hp : isSpacePy a <;> simp [collapseWs, hp, noAdjWs]
    | cons b bs =>
      by_cases hpa : isSpacePy a
      · by_cases hpb : isSpacePy b
        · simpa [collapseWs, hpa, hpb] using ih
        · obtain ⟨t, ht⟩ := collapseWs_head_not_ws bs (by simpa using hpb)
          rw [show collapseWs (a :: b :: bs) = ' ' :: collapseWs (b :: bs) by
            simp [collapseWs, hpa, hpb]]
          rw [ht]
          rw [ht] at ih
          simp only [noAdjWs, Bool.and_eq_true]
          constructor
          · simp [isSpacePy] at hpb ⊢
            tauto
          · exact ih
      · rw [show collapseWs (a :: b :: bs) = a :: collapseWs (b :: bs) by
          simp [collapseWs, hpa]]
        exact noAdjWs_cons (by simpa using hpa) ih

theorem noAdjWs_dropWhile {p : Char → Bool} : ∀ {s : List Char},
    noAdjWs s = true → noAdjWs (s.dropWhile p) = true := by
  intro s
  induction s with
  | nil => intro h; exact h
  | cons a rest ih =>
    intro h
    rw [List.dropWhile_cons]
    by_cases hp : p a
    · rw [if_pos hp]
      exact ih (noAdjWs_tail h)
    · rw [if_neg hp]
      exact h

theorem noAdjWs_append_left : ∀ {a b : List Char},
    noAdjWs (a ++ b) = true → noAdjWs a = true := by
  intro a
  induction a with
  | nil => intro b _; rfl
  | cons x xs ih =>
    intro b h
    cases xs with
    | nil => rfl
    | cons y ys =>
      have h2 : noAdjWs (x :: y :: (ys ++ b)) = true := by simpa using h
      simp only [noAdjWs, Bool.and_eq_true] at h2 ⊢
      exact ⟨h2.1, by simpa using ih (b := b) (by simpa using h2.2)⟩

theorem noAdjWs_dropTrail {p : Char → Bool} {s : List Char}
    (h : noAdjWs s = true) : noAdjWs (dropTrail p s) = true := by
  obtain ⟨t, ht⟩ := dropTrail_eq_append p s
  exact noAdjWs_append_left (by rw [← ht]; exact h)

theorem collapseWs_eq_self : ∀ {s : List Char},
    (∀ c ∈ s, isSpacePy c = false ∨ c = ' ') → noAdjWs s = true → collapseWs s = s := by
  intro s
  induction s with
  | nil => intro _ _; rfl
  | cons a rest ih =>
    intro h1 h2
    cases rest with
    | nil =>
      by_cases hp : isSpacePy a
      · rcases h1 a (List.mem_cons_self _ _) with h | h
        · rw [h] at hp; cases hp
        · simp [collapseWs, hp, h]
      · simp [collapseWs, hp]
    | cons b bs =>
      by_cases hpa : isSpacePy a
      · by_cases hpb : isSpacePy b
        · exfalso
          simp only [noAdjWs, Bool.and_eq_true] at h2
          have := h2.1
          simp [hpa, hpb] at this
        · rcases h1 a (List.mem_cons_self _ _) with h | h
          · rw [h] at hpa; cases hpa
          · rw [show collapseWs (a :: b :: bs) = ' ' :: collapseWs (b :: bs) by
              simp [collapseWs, hpa, hpb]]
            rw [ih (fun c hc => h1 c (List.mem_cons_of_mem _ hc)) (noAdjWs_tail h2), h]
      · rw [show collapseWs (a :: b :: bs) = a :: collapseWs (b :: bs) by
          simp [collapseWs, hpa]]
        rw [ih (fun c hc => h1 c (List.mem_cons_of_mem _ hc)) (noAdjWs_tail h2)]

theorem parenSubF_id : ∀ (f : Nat) (s : List Char), ('(' : Char) ∉ s →
    parenSubF f s = s := by
  intro f
  induction f with
  | zero => intro s _; rfl
  | succ f ih =>
    intro s hs
    cases s with
    | nil => rfl
    | cons c rest =>
      have hc : c ≠ '(' := fun h => hs (h ▸ List.mem_cons_self _ _)
      have hrest : ('(' : Char) ∉ rest := fun h => hs (List.mem_cons_of_mem _ h)
      simp only [parenSubF]
      rw [if_neg hc, ih rest hrest]

theorem ampToAnd_id : ∀ {s : List Char}, ('&' : Char) ∉ s → ampToAnd s = s := by
  intro s
  induction s with
  | nil => intro _; rfl
  | cons c rest ih =>
    intro hs
    have hc : c ≠ '&' := fun h => hs (h ▸ List.mem_cons_self _ _)
    have hrest : ('&' : Char) ∉ rest := fun h => hs (List.mem_cons_of_mem _ h)
    simp only [ampToAnd]
    rw [if_neg hc, ih hrest]

/-- Every character of a cleaned name is a space or a kept non-whitespace
character. -/
theorem cleanNameCore_chars (x : List Char) :
    ∀ c ∈ cleanNameCore x, c = ' ' ∨ (keepCharB c = true ∧ isSpacePy c = false) := by
  intro c hc
  simp only [cleanNameCore, stripPy, stripBy] at hc
  have h1 := (List.dropWhile_sublist isSpacePy).mem (mem_dropTrail hc)
  rcases mem_collapseWs_ws h1 with rfl | h2
  · exact Or.inl rfl
  · rcases List.mem_filter.mp h2.1 with ⟨_, hk⟩
    exact Or.inr ⟨hk, h2.2⟩

theorem cleanNameCore_noAdj (x : List Char) : noAdjWs (cleanNameCore x) = true := by
  simp only [cleanNameCore, stripPy, stripBy]
  exact noAdjWs_dropTrail (noAdjWs_dropWhile (collapseWs_noAdj _))

theorem cleanNameCore_idem (x : List Char)
    (hrev : subReviewE (cleanNameCore x) = cleanNameCore x) :
    cleanNameCore (cleanNameCore x) = cleanNameCore x := by
  have hch := cleanNameCore_chars x
  have hparen : ('(' : Char) ∉ cleanNameCore x := by
    intro hm
    rcases hch _ hm with h | h
    · cases h
    · exact absurd h.1 (by decide)
  have hamp : ('&' : Char) ∉ cleanNameCore x := by
    intro hm
    rcases hch _ hm with h | h
    · cases h
    · exact absurd h.1 (by decide)
  have hfilter : (cleanNameCore x).filter keepCharB = cleanNameCore x := by
    rw [List.filter_eq_self]
    intro c hc
    rcases hch c hc with rfl | h
    · decide
    · exact h.1
  have hcoll : collapseWs (cleanNameCore x) = cleanNameCore x := by
    refine collapseWs_eq_self ?_ (cleanNameCore_noAdj x)
    intro c hc
    rcases hch c hc with rfl | h
    · exact Or.inr rfl
    · exact Or.inl h.2
  have hstrip : stripPy (cleanNameCore x) = cleanNameCore x := by
    rw [stripPy, stripBy]
    have hdw : (cleanNameCore x).dropWhile isSpacePy = cleanNameCore x := by
      refine dropWhile_eq_self ?_
      intro c hc
      simp only [cleanNameCore, stripPy, stripBy] at hc
      exact head?_dropWhile_not (dropTrail_head hc)
    rw [hdw]
    refine dropTrail_eq_self ?_
    intro c hc
    simp only [cleanNameCore, stripPy, stripBy] at hc
    exact dropTrail_getLast_not hc
  show stripPy (collapseWs (((ampToAnd (parenSub (subReviewE (cleanNameCore x))))).filter
    keepCharB)) = cleanNameCore x
  rw [hrev, parenSub, parenSubF_id _ _ hparen, ampToAnd_id hamp, hfilter, hcoll, hstrip]

/-- Claim C7 as stated is false: for the input "xiaomi 12" the brand mapping
re-cases the display name to "Xiaomi 12", whose safe name differs from the
original safe name "xiaomi 12". -/
theorem clean_phone_name_claim_cex :
    ¬ ((clean_phone_name ((clean_phone_name ("xiaomi 12".toList)).display_name)).safe_name
      = (clean_phone_name ("xiaomi 12".toList)).safe_name) := by decide

/-- Claim C7 (amended): re-applying clean_phone_name to its own display_name
yields the same safe_name, provided the display name coincides with the
cleaned name (the brand mapping did not alter the leading token, and the
cleaned name is non-empty) and the cleaned name admits no further
review-phrase match. -/
theorem clean_phone_name_safe_eq (y : List Char) :
    (clean_phone_name y).safe_name = sanitize_filename (cleanNameCore y) := by
  simp only [clean_phone_name]

theorem clean_phone_name_idem (x : List Char)
    (hdisp : (clean_phone_name x).display_name = cleanNameCore x)
    (hrev : subReviewE (cleanNameCore x) = cleanNameCore x) :
    (clean_phone_name ((clean_phone_name x).display_name)).safe_name
      = (clean_phone_name x).safe_name := by
  rw [hdisp, clean_phone_name_safe_eq, clean_phone_name_safe_eq,
    cleanNameCore_idem x hrev]

/-- Witness for C7 at an unmapped brand whose name cleans to itself. -/
theorem clean_phone_name_idem_witness :
    (clean_phone_name ((clean_phone_name ("Pixel 9 Pro".toList)).display_name)).safe_name
      = (clean_phone_name ("Pixel 9 Pro".toList)).safe_name :=
  clean_phone_name_idem ("Pixel 9 Pro".toList) (by decide) (by decide)

/-! ## Claims C6 and C8: the download loop -/

theorem natToStrAuxF_val : ∀ (f n : Nat) (acc : List Char), n ≤ f →
    (natToStrAuxF f n acc).foldl (fun a c => a * 10 + (c.toNat - 48)) 0
      = acc.foldl (fun a c => a * 10 + (c.toNat - 48)) n := by
  intro f
  induction f with
  | zero =>
    intro n acc h
    have : n = 0 := by omega
    subst this
    rfl
  | succ f ih =>
    intro n acc h
    by_cases hn : n = 0
    · subst hn
      simp [natToStrAuxF]
    · rw [show natToStrAuxF (f + 1) n acc
          = natToStrAuxF f (n / 10) (Char.ofNat (48 + n % 10) :: acc) by
        simp [natToStrAuxF, hn]]
      rw [ih (n / 10) _ (by omega)]
      have hd : (Char.ofNat (48 + n % 10)).toNat = 48 + n % 10 := by
        have hm : n % 10 < 10 := Nat.mod_lt _ (by omega)
        interval_cases h10 : n % 10 <;> decide
      simp only [List.foldl_cons, hd]
      congr 1
      omega

theorem natToStr_val (n : Nat) :
    (natToStr n).foldl (fun a c => a * 10 + (c.toNat - 48)) 0 = n := by
  by_cases hn : n = 0
  · subst hn
    decide
  · rw [natToStr, if_neg hn, natToStrAuxF_val n n [] (Nat.le_refl n)]
    rfl

theorem natToStr_inj {n m : Nat} (h : natToStr n = natToStr m) : n = m := by
  have h1 := natToStr_val n
  rw [h, natToStr_val m] at h1
  exact h1.symm

theorem natToStrAuxF_digits : ∀ (f n : Nat) (acc : List Char),
    (∀ c ∈ acc, 48 ≤ c.toNat ∧ c.toNat ≤ 57) →
    ∀ c ∈ natToStrAuxF f n acc, 48 ≤ c.toNat ∧ c.toNat ≤ 57 := by
  intro f
  induction f with
  | zero => intro n acc hacc c hc; exact hacc c hc
  | succ f ih =>
    intro n acc hacc c hc
    by_cases hn : n = 0
    · subst hn
      simp only [natToStrAuxF, if_pos rfl] at hc
      exact hacc c hc
    · rw [show natToStrAuxF (f + 1) n acc
          = natToStrAuxF f (n / 10) (Char.ofNat (48 + n % 10) :: acc) by
        simp [natToStrAuxF, hn]] at hc
      refine ih (n / 10) _ ?_ c hc
      intro d hd
      rcases List.mem_cons.mp hd with rfl | hd2
      · have hm : n % 10 < 10 := Nat.mod_lt _ (by omega)
        interval_cases h10 : n % 10 <;> exact (by decide)
      · exact hacc d hd2

theorem natToStr_digits (n : Nat) : ∀ c ∈ natToStr n, 48 ≤ c.toNat ∧ c.toNat ≤ 57 := by
  by_cases hn : n = 0
  · subst hn
    intro c hc
    have h0 : natToStr 0 = ['0'] := rfl
    rw [h0, List.mem_singleton] at hc
    subst hc
    decide
  · rw [natToStr, if_neg hn]
    exact natToStrAuxF_digits n n [] (by intro c hc; cases hc)

theorem natToStr_no_dot {n : Nat} {c : Char} (hc : c ∈ natToStr n) : c ≠ '.' := by
  intro heq
  have := natToStr_digits n c hc
  rw [heq] at this
  exact absurd this (by decide)

/-- Every chosen extension starts with a dot. -/
theorem extFor_head (u : List Char) : ∃ t, extFor u = '.' :: t := by
  rw [extFor]
  by_cases h : extOfPath (pathOfUrl u) = [] ∨ extOfPath (pathOfUrl u) ∉ allowedExts
  · exact ⟨"jpg".toList, by rw [if_pos h]; rfl⟩
  · rw [if_neg h]
    push_neg at h
    have hmem := h.2
    simp only [allowedExts, List.mem_cons, List.mem_singleton] at hmem
    rcases hmem with he | he | he | he | he <;> first
      | (rw [he]; exact ⟨_, rfl⟩)
      | (cases he)

theorem takeWhile_append_all {p : Char → Bool} {a : List Char} (b : List Char)
    (ha : ∀ c ∈ a, p c = true) :
    (a ++ b).takeWhile p = a ++ b.takeWhile p := by
  induction a with
  | nil => simp
  | cons x xs ih =>
    have hx : p x = true := ha x (List.mem_cons_self _ _)
    rw [List.cons_append, List.takeWhile_cons, if_pos hx,
      ih (fun c hc => ha c (List.mem_cons_of_mem _ hc))]
    rfl

theorem natToStr_ext_cancel {i j : Nat} {u v : List Char}
    (h : natToStr i ++ extFor u = natToStr j ++ extFor v) : i = j := by
  obtain ⟨tu, htu⟩ := extFor_head u
  obtain ⟨tv, htv⟩ := extFor_head v
  have hti : (natToStr i ++ extFor u).takeWhile (fun c => c ≠ '.') = natToStr i := by
    rw [takeWhile_append_all _ (fun c hc => by
      simp only [decide_eq_true_eq]
      exact natToStr_no_dot hc), htu]
    simp [List.takeWhile_cons]
  have htj : (natToStr j ++ extFor v).takeWhile (fun c => c ≠ '.') = natToStr j := by
    rw [takeWhile_append_all _ (fun c hc => by
      simp only [decide_eq_true_eq]
      exact natToStr_no_dot hc), htv]
    simp [List.takeWhile_cons]
  have := hti
  rw [h, htj] at this
  exact natToStr_inj this.symm

theorem slotFilename_inj {i j : Nat} {u v : List Char}
    (h : slotFilename i u = slotFilename j v) : i = j := by
  by_cases hi : i = 1
  · by_cases hj : j = 1
    · rw [hi, hj]
    · exfalso
      rw [slotFilename, slotFilename, if_pos hi, if_neg hj] at h
      have h0 := congrArg List.head? h
      simp at h0
  · by_cases hj : j = 1
    · exfalso
      rw [slotFilename, slotFilename, if_neg hi, if_pos hj] at h
      have h0 := congrArg List.head? h
      simp at h0
    · rw [slotFilename, slotFilename, if_neg hi, if_neg hj] at h
      rw [List.append_assoc, List.append_assoc] at h
      have h2 := List.append_cancel_left h
      exact natToStr_ext_cancel h2

theorem slotPath_inj {dir : List Char} {i j : Nat} {u v : List Char}
    (h : slotPath dir i u = slotPath dir j v) : i = j := by
  rw [slotPath, slotPath, List.append_assoc, List.append_assoc] at h
  exact slotFilename_inj (List.append_cancel_left (List.append_cancel_left h))

/-- The download loop evaluated as a filterMap over the enumerated URL list:
each slot's save path is determined by its 1-based position, and exactly the
successful slots contribute their path. -/
theorem dlGo_eq (net : List Char → DLOutcome) (dir : List Char) :
    ∀ (urls : List (List Char)) (idx : Nat),
      dlGo net dir idx urls = (urls.enumFrom idx).filterMap (fun pr =>
        if download_image net pr.2 (slotPath dir pr.1 pr.2) then some (slotPath dir pr.1 pr.2)
        else none) := by
  intro urls
  induction urls with
  | nil => intro idx; simp [dlGo]
  | cons u rest ih =>
    intro idx
    rw [List.enumFrom_cons, List.filterMap_cons]
    by_cases hd : download_image net u (slotPath dir idx u)
    · simp only [dlGo, hd, if_true, ih (idx + 1)]
    · simp only [dlGo, hd, if_false, ih (idx + 1), Bool.false_eq_true]

/-- Members of an enumeration with equal indices are the same entry. -/
theorem enumFrom_index_inj {urls : List (List Char)} {k n : Nat} {u v : List Char}
    (h1 : (n, u) ∈ urls.enumFrom k) (h2 : (n, v) ∈ urls.enumFrom k) : u = v := by
  obtain ⟨_, hn1, he1⟩ := List.mem_enumFrom h1
  obtain ⟨_, hn2, he2⟩ := List.mem_enumFrom h2
  rw [he1, he2]

/-- Claim C8: filenames are positional and deterministic.  The download loop
equals the filterMap over the enumerated discovered list, where the slot at
1-based position 1 is named main with the chosen extension, later slots
angle_n for their position n (regardless of earlier failures), and the
chosen extension is the URL path's extension when recognised, else ".jpg". -/
theorem slot_naming (net : List Char → DLOutcome) (dir : List Char)
    (urls : List (List Char)) :
    dlGo net dir 1 urls = (urls.enumFrom 1).filterMap (fun pr =>
      if download_image net pr.2 (slotPath dir pr.1 pr.2) then some (slotPath dir pr.1 pr.2)
      else none) ∧
    (∀ u : List Char, slotFilename 1 u = "main".toList ++ extFor u) ∧
    (∀ (idx : Nat) (u : List Char), idx ≠ 1 →
      slotFilename idx u = "angle_".toList ++ natToStr idx ++ extFor u) ∧
    (∀ u : List Char, extFor u =
      if extOfPath (pathOfUrl u) ∈ allowedExts then extOfPath (pathOfUrl u)
      else ".jpg".toList) := by
  refine ⟨dlGo_eq net dir urls 1, fun u => by rw [slotFilename, if_pos rfl],
    fun idx u hidx => by rw [slotFilename, if_neg hidx], fun u => ?_⟩
  by_cases hmem : extOfPath (pathOfUrl u) ∈ allowedExts
  · have hne : extOfPath (pathOfUrl u) ≠ [] := by
      intro he
      rw [he] at hmem
      exact absurd hmem (by decide)
    rw [extFor, if_neg (by push_neg; exact ⟨hne, hmem⟩), if_pos hmem]
  · rw [extFor, if_pos (Or.inr hmem), if_neg hmem]

/-- Witness for C8: a later slot's filename is positional. -/
theorem slot_naming_witness :
    slotFilename 2 ("https://a/b.png".toList)
      = "angle_".toList ++ natToStr 2 ++ extFor ("https://a/b.png".toList) :=
  (slot_naming (fun _ => DLOutcome.connErr) [] []).2.2.1 2 ("https://a/b.png".toList)
    (by decide)

/-- The outcome used by the counterexample to claim C6: a final response with
the non-2xx status 300 and a non-empty body. -/
def net300 : List Char → DLOutcome := fun _ => DLOutcome.resp 300 ['x']

/-- Counterexample to claim C6 as stated: a response with the non-2xx status
300 is not raised on by raise_for_status (which raises only for 4xx/5xx), so
the download is reported successful and its path is added to the list. -/
theorem download_image_claim_cex :
    download_image net300 ("https://a/x.jpg".toList) ("img/p/main.jpg".toList) = true ∧
    dlGo net300 ("img/p".toList) 1 [("https://a/x.jpg".toList)]
      = [("img/p/main.jpg".toList)] := by decide

/-- Claim C6 (amended): a download whose response has a 4xx or 5xx status, or
whose saved file is empty, or whose request raised, is reported failed, and
the save path of a failed slot is absent from the returned path list, while
every other URL of the list is still processed: the loop equals the
filterMap over the whole enumerated URL list, so no failure aborts it. -/
theorem download_failure_excluded (net : List Char → DLOutcome) (dir u : List Char)
    (urls : List (List Char)) (n : Nat)
    (hmem : (n, u) ∈ urls.enumFrom 1)
    (hfail : download_image net u (slotPath dir n u) = false) :
    slotPath dir n u ∉ dlGo net dir 1 urls ∧
    (∀ (net2 : List Char → DLOutcome) (u2 sp : List Char) (st : Nat) (bd : List Char),
      net2 u2 = DLOutcome.resp st bd → 400 ≤ st → st < 600 →
        download_image net2 u2 sp = false) ∧
    (∀ (net2 : List Char → DLOutcome) (u2 sp : List Char) (st : Nat),
      net2 u2 = DLOutcome.resp st [] → download_image net2 u2 sp = false) ∧
    download_image (fun _ => DLOutcome.connErr) u (slotPath dir n u) = false ∧
    dlGo net dir 1 urls = (urls.enumFrom 1).filterMap (fun pr =>
      if download_image net pr.2 (slotPath dir pr.1 pr.2) then some (slotPath dir pr.1 pr.2)
      else none) := by
  refine ⟨?_, ?_, ?_, rfl, dlGo_eq net dir urls 1⟩
  · intro hin
    rw [dlGo_eq] at hin
    rcases List.mem_filterMap.mp hin with ⟨⟨m, v⟩, hmv, hif⟩
    by_cases hd : download_image net v (slotPath dir m v)
    · rw [if_pos hd] at hif
      have hpath : slotPath dir m v = slotPath dir n u := by
        injection hif
      have hnm : m = n := slotPath_inj hpath
      subst hnm
      have huv : v = u := enumFrom_index_inj hmv hmem
      subst huv
      rw [hfail] at hd
      cases hd
    · rw [if_neg hd] at hif
      cases hif
  · intro net2 u2 sp st bd hresp h4 h6
    simp only [download_image, hresp]
    rw [if_pos ⟨h4, h6⟩]
  · intro net2 u2 sp st hresp
    simp only [download_image, hresp]
    by_cases hst : 400 ≤ st ∧ st < 600
    · rw [if_pos hst]
    · rw [if_neg hst]
      decide

/-- Witness for C6: with one URL responding 404 and another with an empty
body, neither path appears in the result, and the loop still equals the
filterMap over the whole enumerated list. -/
theorem download_failure_excluded_witness :
    ("d/main.jpg".toList ∉ dlGo (fun _ => DLOutcome.resp 404 ['x']) ("d".toList) 1
      [("https://a/x.jpg".toList)]) ∧
    (∀ (net2 : List Char → DLOutcome) (u2 sp : List Char) (st : Nat) (bd : List Char),
      net2 u2 = DLOutcome.resp st bd → 400 ≤ st → st < 600 →
        download_image net2 u2 sp = false) ∧
    (∀ (net2 : List Char → DLOutcome) (u2 sp : List Char) (st : Nat),
      net2 u2 = DLOutcome.resp st [] → download_image net2 u2 sp = false) ∧
    download_image (fun _ => DLOutcome.connErr) ("https://a/x.jpg".toList)
      (slotPath ("d".toList) 1 ("https://a/x.jpg".toList)) = false ∧
    dlGo (fun _ => DLOutcome.resp 404 ['x']) ("d".toList) 1 [("https://a/x.jpg".toList)]
      = ([("https://a/x.jpg".toList)].enumFrom 1).filterMap (fun pr =>
          if download_image (fun _ => DLOutcome.resp 404 ['x']) pr.2
              (slotPath ("d".toList) pr.1 pr.2) then
            some (slotPath ("d".toList) pr.1 pr.2)
          else none) := by
  have h := download_failure_excluded (fun _ => DLOutcome.resp 404 ['x']) ("d".toList)
    ("https://a/x.jpg".toList) [("https://a/x.jpg".toList)] 1 (by decide) (by decide)
  refine ⟨?_, h.2.1, h.2.2.1, h.2.2.2.1, h.2.2.2.2⟩
  have h1 := h.1
  have hsp : slotPath ("d".toList) 1 ("https://a/x.jpg".toList) = "d/main.jpg".toList := by
    decide
  rw [hsp] at h1
  exact h1

/-! ## Claims C2 and C5: the pagination loop -/

theorem scrapeLoop_succ (fetch : Nat → Option PageDoc) (mp : Option Nat) (sp f : Nat)
    (s : ScrapeState) :
    scrapeLoop fetch mp sp (f + 1) s
      = match scrapeStep fetch mp sp s with
        | (s2, false) => s2
        | (s2, true) => scrapeLoop fetch mp sp f s2 := rfl

/-- A page whose fetch or parse raised produces no reviews and no content. -/
theorem scrape_single_page_exn : scrape_single_page none = ([], false) := rfl

/-- One iteration on a page whose fetch raised: the empty-page streak is
incremented and the loop stops at once (the no-content branch), whatever the
current streak. -/
theorem scrapeStep_exn (fetch : Nat → Option PageDoc) (mp : Option Nat) (sp : Nat)
    (s : ScrapeState) (hex : fetch s.page_num = none) :
    scrapeStep fetch mp sp s
      = ({ s with
            consecutive_empty := s.consecutive_empty + 1
            fetched := s.fetched ++ [s.page_num] }, false) := by
  simp [scrapeStep, hex, scrape_single_page]

theorem scrapeStep_nonempty (fetch : Nat → Option PageDoc) (sp : Nat) (s : ScrapeState)
    (hne : (scrape_single_page (fetch s.page_num)).1 ≠ []) :
    scrapeStep fetch none sp s
      = ({ s with
            all_reviews := s.all_reviews ++ (scrape_single_page (fetch s.page_num)).1
            consecutive_empty := 0
            fetched := s.fetched ++ [s.page_num]
            page_num := s.page_num + 1 }, true) := by
  simp [scrapeStep, maxPagesReached, hne]

theorem scrapeStep_empty_go (fetch : Nat → Option PageDoc) (sp : Nat) (s : ScrapeState)
    (he : (scrape_single_page (fetch s.page_num)).1 = [])
    (hc : (scrape_single_page (fetch s.page_num)).2 = true)
    (hlt : s.consecutive_empty + 1 < 3) :
    scrapeStep fetch none sp s
      = ({ s with
            consecutive_empty := s.consecutive_empty + 1
            fetched := s.fetched ++ [s.page_num]
            page_num := s.page_num + 1 }, true) := by
  simp [scrapeStep, maxPagesReached, he, hc]
  omega

theorem scrapeStep_empty_stop (fetch : Nat → Option PageDoc) (sp : Nat) (s : ScrapeState)
    (he : (scrape_single_page (fetch s.page_num)).1 = [])
    (hc : (scrape_single_page (fetch s.page_num)).2 = true)
    (hge : 3 ≤ s.consecutive_empty + 1) :
    scrapeStep fetch none sp s
      = ({ s with
            consecutive_empty := s.consecutive_empty + 1
            fetched := s.fetched ++ [s.page_num] }, false) := by
  simp [scrapeStep, maxPagesReached, he, hc]
  omega

/-- Counterexample input to claim C2: page 2 raises, all other pages carry a
review item. -/
def pdOneItem : PageDoc :=
  { reviewItems := [{ h3 := some { text := "Phone A".toList, href := some ("a-review-1.php".toList) }
                      h2 := none
                      aTitle := none
                      img := none
                      li := none
                      dateSpan := none
                      para := none }]
    reviewBodyItems := none
    altItems := []
    contentLen := 5000 }

/-- An empty review page with a non-trivial body length. -/
def pdEmptyBig : PageDoc :=
  { reviewItems := []
    reviewBodyItems := none
    altItems := []
    contentLen := 5000 }

def fetchC2 : Nat → Option PageDoc := fun n => if n = 2 then none else some pdOneItem

/-- Counterexample to claim C2 as stated: page 2 raises while page 1 and page
3 carry reviews; the exception is the first empty page of a streak (far from
three), yet the run stops at page 2 and page 3 is never fetched. -/
theorem exception_claim_cex :
    fetchC2 2 = none ∧
    (scrape_single_page (fetchC2 1)).1 ≠ [] ∧
    (scrape_single_page (fetchC2 3)).1 ≠ [] ∧
    (scrape_gsmarena_reviews fetchC2 none 1 10).fetched = [1, 2] := by decide

/-- Claim C2 (amended): a fetch or parse exception on a page is caught
(scrape_single_page returns no reviews and no-content instead of
propagating) and it increments the empty-page streak; but, because an
exception also reports no content, the pagination loop terminates
immediately on that page rather than continuing, whatever the streak. -/
theorem exception_page_stops (fetch : Nat → Option PageDoc) (mp : Option Nat)
    (sp : Nat) (s : ScrapeState) (hex : fetch s.page_num = none) :
    scrape_single_page none = ([], false) ∧
    scrapeStep fetch mp sp s
      = ({ s with
            consecutive_empty := s.consecutive_empty + 1
            fetched := s.fetched ++ [s.page_num] }, false) :=
  ⟨rfl, scrapeStep_exn fetch mp sp s hex⟩

/-- Witness for C2 at the counterexample fetch function, on page 2. -/
theorem exception_page_stops_witness :
    scrape_single_page none = ([], false) ∧
    scrapeStep fetchC2 none 1
        { all_reviews := [], page_num := 2, consecutive_empty := 0, fetched := [1] }
      = ({ all_reviews := [], page_num := 2, consecutive_empty := 1, fetched := [1, 2] },
          false) :=
  exception_page_stops fetchC2 none 1
    { all_reviews := [], page_num := 2, consecutive_empty := 0, fetched := [1] }
    (by decide)

/-- Claim C5: when pages 1 to 3 yield records and pages 4, 5, 6 yield no
records but have non-trivial bodies, the run (without a page limit) fetches
exactly pages 1 to 6 and returns the records of pages 1 to 3 in traversal
order. -/
theorem pagination_three_empty (fetch : Nat → Option PageDoc) (fuel : Nat)
    (h1 : (scrape_single_page (fetch 1)).1 ≠ [])
    (h2 : (scrape_single_page (fetch 2)).1 ≠ [])
    (h3 : (scrape_single_page (fetch 3)).1 ≠ [])
    (h4 : scrape_single_page (fetch 4) = ([], true))
    (h5 : scrape_single_page (fetch 5) = ([], true))
    (h6 : scrape_single_page (fetch 6) = ([], true))
    (hf : 6 ≤ fuel) :
    (scrape_gsmarena_reviews fetch none 1 fuel).fetched = [1, 2, 3, 4, 5, 6] ∧
    (scrape_gsmarena_reviews fetch none 1 fuel).all_reviews
      = (scrape_single_page (fetch 1)).1 ++ (scrape_single_page (fetch 2)).1
        ++ (scrape_single_page (fetch 3)).1 := by
  obtain ⟨k, rfl⟩ : ∃ k, fuel = k + 6 := ⟨fuel - 6, by omega⟩
  have st1 : scrapeLoop fetch none 1 (k + 6)
      { all_reviews := [], page_num := 1, consecutive_empty := 0, fetched := [] }
      = scrapeLoop fetch none 1 (k + 5)
        { all_reviews := (scrape_single_page (fetch 1)).1, page_num := 2,
          consecutive_empty := 0, fetched := [1] } := by
    rw [show k + 6 = (k + 5) + 1 from rfl, scrapeLoop_succ,
      scrapeStep_nonempty fetch 1 _ h1]
    rfl
  have st2 : scrapeLoop fetch none 1 (k + 5)
      { all_reviews := (scrape_single_page (fetch 1)).1, page_num := 2,
        consecutive_empty := 0, fetched := [1] }
      = scrapeLoop fetch none 1 (k + 4)
        { all_reviews := (scrape_single_page (fetch 1)).1 ++ (scrape_single_page (fetch 2)).1,
          page_num := 3, consecutive_empty := 0, fetched := [1, 2] } := by
    rw [show k + 5 = (k + 4) + 1 from rfl, scrapeLoop_succ,
      scrapeStep_nonempty fetch 1 _ h2]
    rfl
  have st3 : scrapeLoop fetch none 1 (k + 4)
      { all_reviews := (scrape_single_page (fetch 1)).1 ++ (scrape_single_page (fetch 2)).1,
        page_num := 3, consecutive_empty := 0, fetched := [1, 2] }
      = scrapeLoop fetch none 1 (k + 3)
        { all_reviews := (scrape_single_page (fetch 1)).1 ++ (scrape_single_page (fetch 2)).1
            ++ (scrape_single_page (fetch 3)).1,
          page_num := 4, consecutive_empty := 0, fetched := [1, 2, 3] } := by
    rw [show k + 4 = (k + 3) + 1 from rfl, scrapeLoop_succ,
      scrapeStep_nonempty fetch 1 _ h3]
    rfl
  have st4 : scrapeLoop fetch none 1 (k + 3)
      { all_reviews := (scrape_single_page (fetch 1)).1 ++ (scrape_single_page (fetch 2)).1
          ++ (scrape_single_page (fetch 3)).1,
        page_num := 4, consecutive_empty := 0, fetched := [1, 2, 3] }
      = scrapeLoop fetch none 1 (k + 2)
        { all_reviews := (scrape_single_page (fetch 1)).1 ++ (scrape_single_page (fetch 2)).1
            ++ (scrape_single_page (fetch 3)).1,
          page_num := 5, consecutive_empty := 1, fetched := [1, 2, 3, 4] } := by
    rw [show k + 3 = (k + 2) + 1 from rfl, scrapeLoop_succ,
      scrapeStep_empty_go fetch 1 _ (by simp [h4]) (by simp [h4]) (by show (0:Nat) + 1 < 3; decide)]
    rfl
  have st5 : scrapeLoop fetch none 1 (k + 2)
      { all_reviews := (scrape_single_page (fetch 1)).1 ++ (scrape_single_page (fetch 2)).1
          ++ (scrape_single_page (fetch 3)).1,
        page_num := 5, consecutive_empty := 1, fetched := [1, 2, 3, 4] }
      = scrapeLoop fetch none 1 (k + 1)
        { all_reviews := (scrape_single_page (fetch 1)).1 ++ (scrape_single_page (fetch 2)).1
            ++ (scrape_single_page (fetch 3)).1,
          page_num := 6, consecutive_empty := 2, fetched := [1, 2, 3, 4, 5] } := by
    rw [show k + 2 = (k + 1) + 1 from rfl, scrapeLoop_succ,
      scrapeStep_empty_go fetch 1 _ (by simp [h5]) (by simp [h5]) (by show (1:Nat) + 1 < 3; decide)]
    rfl
  have st6 : scrapeLoop fetch none 1 (k + 1)
      { all_reviews := (scrape_single_page (fetch 1)).1 ++ (scrape_single_page (fetch 2)).1
          ++ (scrape_single_page (fetch 3)).1,
        page_num := 6, consecutive_empty := 2, fetched := [1, 2, 3, 4, 5] }
      = { all_reviews := (scrape_single_page (fetch 1)).1 ++ (scrape_single_page (fetch 2)).1
            ++ (scrape_single_page (fetch 3)).1,
          page_num := 6, consecutive_empty := 3, fetched := [1, 2, 3, 4, 5, 6] } := by
    rw [scrapeLoop_succ,
      scrapeStep_empty_stop fetch 1 _ (by simp [h6]) (by simp [h6]) (by show (3:Nat) ≤ 2 + 1; decide)]
    rfl
  have hrun : scrape_gsmarena_reviews fetch none 1 (k + 6)
      = { all_reviews := (scrape_single_page (fetch 1)).1 ++ (scrape_single_page (fetch 2)).1
            ++ (scrape_single_page (fetch 3)).1,
          page_num := 6, consecutive_empty := 3, fetched := [1, 2, 3, 4, 5, 6] } := by
    rw [scrape_gsmarena_reviews, st1, st2, st3, st4, st5, st6]
  rw [hrun]
  exact ⟨rfl, rfl⟩

/-- The fetch function of the C5 witness: three one-item pages, then empty
pages with non-trivial bodies. -/
def fetchC5 : Nat → Option PageDoc :=
  fun n => if n ≤ 3 then some pdOneItem else some pdEmptyBig

/-- Witness for C5 with three concrete one-item pages followed by concrete
empty pages of non-trivial body length. -/
theorem pagination_three_empty_witness :
    (scrape_gsmarena_reviews fetchC5 none 1 20).fetched = [1, 2, 3, 4, 5, 6] ∧
    (scrape_gsmarena_reviews fetchC5 none 1 20).all_reviews
      = (scrape_single_page (fetchC5 1)).1 ++ (scrape_single_page (fetchC5 2)).1
        ++ (scrape_single_page (fetchC5 3)).1 :=
  pagination_three_empty fetchC5 20 (by decide) (by decide) (by decide)
    (by decide) (by decide) (by decide) (by omega)

/-! ## Claim C9: the alternate extraction threshold -/

theorem catCount_le_length (s : Specs) : catCount s ≤ s.length :=
  List.length_filter_le _ _

/-- The counterexample page for claim C9: a title, one scanned category, and
a specs-list div whose table would contribute a Sound category. -/
def specPageC9 : SpecPage :=
  { title := some ("X1".toList)
    tables := [{ prevTh := some ("Network".toList)
                 innerTh := none
                 rows := [{ tds := ["SIM".toList, "Nano".toList], ttl := [], nfo := [] }] }]
    specsList := some [{ prevTh := none
                         innerTh := some ("Sound".toList)
                         rows := [{ tds := []
                                    ttl := ["Loudspeaker".toList]
                                    nfo := ["Yes".toList] }] }] }

/-- The primary result on the counterexample page. -/
def specsC9 : Specs :=
  [("phone_name".toList, .strV ("X1".toList)),
   ("Network".toList, .dict [("SIM".toList, "Nano".toList)])]

/-- Counterexample to claim C9 as stated: the primary method produced exactly
one category (at most one), yet the alternate method does not run, because
the threshold counts the phone_name title entry: the returned dictionary is
the primary result although the alternate pass would have added a category. -/
theorem alternate_claim_cex :
    primaryE specPageC9 = .ok specsC9 ∧
    catCount specsC9 = 1 ∧
    scrape_specifications (some specPageC9) = some specsC9 ∧
    applyAlternate specPageC9 specsC9 ≠ specsC9 := by
  refine ⟨by rfl, by rfl, by rfl, by decide⟩

/-- Claim C9 (amended): the alternate extraction runs if and only if the
primary dictionary has at most one entry in total, counting the phone_name
title entry along with the categories; since categories are a subset of the
entries, a primary result with two or more categories is always returned
unchanged, but with a title present the alternate method already stays off
at one category. -/
theorem alternate_threshold (page : SpecPage) (s : Specs)
    (hok : primaryE page = .ok s) :
    (2 ≤ catCount s → scrape_specifications (some page) = some s) ∧
    (s.length ≤ 1 → scrape_specifications (some page) = some (applyAlternate page s)) ∧
    (¬ s.length ≤ 1 → scrape_specifications (some page) = some s) := by
  refine ⟨?_, ?_, ?_⟩
  · intro h2
    have hle : catCount s ≤ s.length := catCount_le_length s
    have hgt : ¬ s.length ≤ 1 := by omega
    simp [scrape_specifications, hok, hgt]
  · intro h1
    simp [scrape_specifications, hok, h1]
  · intro h1
    simp [scrape_specifications, hok, h1]

/-- The witness page for C9: two scanned categories and no title. -/
def specPageW : SpecPage :=
  { title := none
    tables := [{ prevTh := some ("Network".toList)
                 innerTh := none
                 rows := [{ tds := ["SIM".toList, "Nano".toList], ttl := [], nfo := [] }] },
               { prevTh := some ("Body".toList)
                 innerTh := none
                 rows := [{ tds := ["Weight".toList, "200 g".toList], ttl := [], nfo := [] }] }]
    specsList := none }

def specsW : Specs :=
  [("Network".toList, .dict [("SIM".toList, "Nano".toList)]),
   ("Body".toList, .dict [("Weight".toList, "200 g".toList)])]

/-- Witness for C9: with two categories the primary result is returned
unchanged. -/
theorem alternate_threshold_witness :
    scrape_specifications (some specPageW) = some specsW :=
  (alternate_threshold specPageW specsW (by rfl)).1 (by decide)

/-! ## Claim C10: the image manifest invariant -/

theorem alUpd_mem {V : Type} {m : List (List Char × V)} {k : List Char} {v : V}
    {p : List Char × V} (h : p ∈ alUpd m k v) : p ∈ m ∨ p = (k, v) := by
  rw [alUpd] at h
  by_cases hk : m.any (fun q => q.1 = k)
  · rw [if_pos hk] at h
    rcases List.mem_map.mp h with ⟨q, hq, heq⟩
    by_cases hq1 : q.1 = k
    · rw [if_pos hq1] at heq
      exact Or.inr heq.symm
    · rw [if_neg hq1] at heq
      exact Or.inl (heq ▸ hq)
  · rw [if_neg hk] at h
    rcases List.mem_append.mp h with h1 | h1
    · exact Or.inl h1
    · rw [List.mem_singleton] at h1
      exact Or.inr h1

/-- The invariant of the results dictionary: every manifest entry counts
exactly its paths and holds at least one path. -/
def manifestOK (st : ProcState) : Prop :=
  ∀ p ∈ st.results, p.2.image_count = p.2.image_paths.length ∧
    1 ≤ p.2.image_count ∧ p.2.image_paths ≠ []

theorem processPhone_inv (net : List Char → DLOutcome)
    (pages : List Char → Option PicturesPage) (dir : List Char) (mi : Nat)
    (s : ProcState) (ph : List Char × List Char) (hs : manifestOK s) :
    manifestOK (processPhone net pages dir mi s ph) ∧
    (processPhone net pages dir mi s ph).successful
        + (processPhone net pages dir mi s ph).failed
      = s.successful + s.failed + 1 := by
  by_cases hph : ph.2 = []
  · constructor
    · intro p hp
      exact hs p (by simpa [processPhone, hph] using hp)
    · simp [processPhone, hph]
      omega
  · by_cases hemp : (download_phone_images net pages ph.1 ph.2 dir mi).1 = []
    · constructor
      · intro p hp
        exact hs p (by simpa [processPhone, hph, hemp] using hp)
      · simp [processPhone, hph, hemp]
        omega
    · constructor
      · intro p hp
        have hp2 : p ∈ alUpd s.results ph.1
            { spec_url := ph.2
              image_count := (download_phone_images net pages ph.1 ph.2 dir mi).1.length
              image_paths := (download_phone_images net pages ph.1 ph.2 dir mi).1
              clean_info := (download_phone_images net pages ph.1 ph.2 dir mi).2 } := by
          simpa [processPhone, hph, hemp] using hp
        rcases alUpd_mem hp2 with hold | hnew
        · exact hs p hold
        · subst hnew
          refine ⟨rfl, ?_, hemp⟩
          have : (download_phone_images net pages ph.1 ph.2 dir mi).1 ≠ [] := hemp
          cases hL : (download_phone_images net pages ph.1 ph.2 dir mi).1 with
          | nil => exact absurd hL this
          | cons a t => simp [hL]
      · simp [processPhone, hph, hemp]
        omega

theorem foldl_processPhone_inv (net : List Char → DLOutcome)
    (pages : List Char → Option PicturesPage) (dir : List Char) (mi : Nat) :
    ∀ (phones : List (List Char × List Char)) (s : ProcState), manifestOK s →
      manifestOK (phones.foldl (processPhone net pages dir mi) s) ∧
      (phones.foldl (processPhone net pages dir mi) s).successful
          + (phones.foldl (processPhone net pages dir mi) s).failed
        = s.successful + s.failed + phones.length := by
  intro phones
  induction phones with
  | nil => intro s hs; exact ⟨hs, by simp⟩
  | cons ph rest ih =>
    intro s hs
    obtain ⟨h1, h2⟩ := processPhone_inv net pages dir mi s ph hs
    obtain ⟨h3, h4⟩ := ih (processPhone net pages dir mi s ph) h1
    refine ⟨by simpa using h3, ?_⟩
    rw [List.foldl_cons] at *
    rw [h4, h2]
    simp
    omega

/-- Claim C10: every manifest entry of process_phones_from_csv has
image_count equal to the length of its image_paths and at least 1 (its path
list is non-empty), so a phone whose downloads all failed receives no entry
and is counted as failed: successes and failures partition the processed
phones. -/
theorem manifest_entry_invariant (net : List Char → DLOutcome)
    (pages : List Char → Option PicturesPage) (rows : List CsvRow)
    (images_dir : List Char) (mp : Option Nat) (mi sf : Nat) :
    (∀ p ∈ (process_phones_from_csv net pages rows images_dir mp mi sf).results,
      p.2.image_count = p.2.image_paths.length ∧ 1 ≤ p.2.image_count ∧
        p.2.image_paths ≠ []) ∧
    (process_phones_from_csv net pages rows images_dir mp mi sf).successful
        + (process_phones_from_csv net pages rows images_dir mp mi sf).failed
      = (slicePhones (phonesFromRows rows) mp sf).length := by
  have h0 : manifestOK ⟨[], 0, 0⟩ := by
    intro p hp
    cases hp
  obtain ⟨h1, h2⟩ := foldl_processPhone_inv net pages images_dir mi
    (slicePhones (phonesFromRows rows) mp sf) ⟨[], 0, 0⟩ h0
  exact ⟨h1, by simpa using h2⟩

/-- Witness for C10 on a one-row CSV whose downloads succeed. -/
theorem manifest_entry_invariant_witness :
    (∀ p ∈ (process_phones_from_csv (fun _ => DLOutcome.resp 200 ['x'])
        (fun _ => some { mainDiv := some { img := some { src := some ("/vv/bigpic/a.jpg".toList) } }
                         picturesList := none
                         allImgs := [] })
        [{ phone_name := some ("Pixel 9".toList)
           spec_url := some ("https://www.gsmarena.com/pixel_9-11111.php".toList)
           metadata_spec_url := none
           review_url := none }]
        ("images".toList) none 5 0).results,
      p.2.image_count = p.2.image_paths.length ∧ 1 ≤ p.2.image_count ∧
        p.2.image_paths ≠ []) ∧
    (process_phones_from_csv (fun _ => DLOutcome.resp 200 ['x'])
        (fun _ => some { mainDiv := some { img := some { src := some ("/vv/bigpic/a.jpg".toList) } }
                         picturesList := none
                         allImgs := [] })
        [{ phone_name := some ("Pixel 9".toList)
           spec_url := some ("https://www.gsmarena.com/pixel_9-11111.php".toList)
           metadata_spec_url := none
           review_url := none }]
        ("images".toList) none 5 0).successful
      + (process_phones_from_csv (fun _ => DLOutcome.resp 200 ['x'])
        (fun _ => some { mainDiv := some { img := some { src := some ("/vv/bigpic/a.jpg".toList) } }
                         picturesList := none
                         allImgs := [] })
        [{ phone_name := some ("Pixel 9".toList)
           spec_url := some ("https://www.gsmarena.com/pixel_9-11111.php".toList)
           metadata_spec_url := none
           review_url := none }]
        ("images".toList) none 5 0).failed
      = (slicePhones (phonesFromRows
          [{ phone_name := some ("Pixel 9".toList)
             spec_url := some ("https://www.gsmarena.com/pixel_9-11111.php".toList)
             metadata_spec_url := none
             review_url := none }]) none 0).length :=
  manifest_entry_invariant (fun _ => DLOutcome.resp 200 ['x'])
    (fun _ => some { mainDiv := some { img := some { src := some ("/vv/bigpic/a.jpg".toList) } }
                     picturesList := none
                     allImgs := [] })
    [{ phone_name := some ("Pixel 9".toList)
       spec_url := some ("https://www.gsmarena.com/pixel_9-11111.php".toList)
       metadata_spec_url := none
       review_url := none }]
    ("images".toList) none 5 0



end GsmScraper
